import Mathlib

/-!
# Bank simulation (`project4/Project4.c`)

A shallow embedding of the customer queue, the statistics pass and the thread
protocol of the bank simulation, together with the properties proved about them.

Representation.  A `Customer*` chain (`next` pointers ending in `NULL`) is the list
of its nodes from the head to the last node; `NULL` is the empty list, and a
possibly-`NULL` node pointer is an `Option Customer`.  The `next` field is therefore
the list structure itself and is not a record field.  A node handed to `enqueue` is
a single detached node (its own `next` is `NULL`): the source never writes the
`next` of a node it appends, so this is the condition under which the chain stays
well formed.  The C `int` fields are unbounded integers (signed overflow is
undefined in C and is not reached by the counters of one simulated day); the
`unsigned int` arithmetic of `randomWait` is taken modulo `2 ^ 32`.
-/

namespace Project4

/-! ## Constants -/

/-- Number of teller threads (`#define TELLER_NUM 3`). -/
def TELLER_NUM : Nat := 3

/-- Simulated hours the bank stays open (`#define OPEN_HOURS 1`). -/
def OPEN_HOURS : Int := 1

/-- Value of `openTimeSecs` that `openBank` hands to `bankClock`. -/
def openTimeSecs : Int := OPEN_HOURS * 60 * 60

/-! ## Customer nodes and the linked queue -/

/-- Data fields of `struct Customer` (the `next` link is the list structure, the
`wait` mutex has no data). -/
structure Customer where
  id : Int
  startWaitTime : Int
  endWaitTime : Int
  tellWaitTime : Int
  transTime : Int
  depth : Int
  startingDepth : Int
deriving DecidableEq, Repr

/-- Result of `traverse`: the chain after the walk (depth fields rewritten), the
returned node (`NULL` for an empty chain) and the final value of `*depth`. -/
structure Walk where
  chain : List Customer
  tail : Option Customer
  depth : Int
deriving DecidableEq, Repr

/-- Function `traverse(head, depth)`: walks to the node whose `next` is `NULL`,
incrementing `*depth` and storing it in every node on the way. -/
def traverse : List Customer → Int → Walk
  | [], depth => { chain := [], tail := none, depth := depth }
  | head :: rest, depth =>
    let depth := depth + 1
    let head := { head with depth := depth }
    match rest with
    | [] => { chain := [head], tail := some head, depth := depth }
    | _ :: _ =>
      let w := traverse rest depth
      { chain := head :: w.chain, tail := w.tail, depth := w.depth }

/-- Function `findTail(head)`: `traverse` started with `tailDepth = 0`. -/
def findTail (head : List Customer) : Walk :=
  traverse head 0

/-- Function `dequeue(queue)`: the removed head (or `NULL`) and the new `*queue`. -/
def dequeue (queue : List Customer) : Option Customer × List Customer :=
  match queue with
  | [] => (none, [])
  | head :: rest => (some head, rest)

/-- Function `enqueue(cust, queue)`: the returned depth and the new `*queue`. -/
def enqueue (cust : Option Customer) (queue : List Customer) : Int × List Customer :=
  match cust with
  | none => (0, queue)
  | some cust =>
    let w := findTail queue
    match w.tail with
    | none =>
      let cust := { cust with depth := 1 }
      (cust.depth, [cust])
    | some tail =>
      let cust := { cust with depth := tail.depth + 1 }
      (cust.depth, w.chain ++ [cust])

/-- Shared `Customers` wrapper: the queue and the counting semaphore. -/
structure Customers where
  q : List Customer
  semaphore : Nat
deriving DecidableEq, Repr

/-- Function `getNextCust()`: `dequeue` on `bank.customers.q` under the queue lock. -/
def getNextCust (customers : Customers) : Option Customer × Customers :=
  let r := dequeue customers.q
  (r.1, { customers with q := r.2 })

/-- Store `startingDepth = depth` through the pointer `newCust`, which after
`enqueue` is the last node of the chain. -/
def setStartingDepth : List Customer → List Customer
  | [] => []
  | [c] => [{ c with startingDepth := c.depth }]
  | c :: d :: rest => c :: setStartingDepth (d :: rest)

/-- Locked part of `addCustomer` (lines 136-139): `enqueue`, then
`newCust->startingDepth = newCust->depth`. -/
def addCustomerLocked (newCust : Customer) (q : List Customer) : List Customer :=
  setStartingDepth (enqueue (some newCust) q).2

/-- Function `addCustomer(newCust)`: the locked part followed by `sem_post`. -/
def addCustomer (newCust : Option Customer) (customers : Customers) : Customers :=
  match newCust with
  | none => customers
  | some newCust =>
    { q := addCustomerLocked newCust customers.q, semaphore := customers.semaphore + 1 }

/-! ## Random waits -/

/-- Reduction of a value to `unsigned int` (32 bits). -/
def u32 (n : Nat) : Nat :=
  n % 2 ^ 32

/-- Conversion of an `unsigned int` to `int` on assignment (two's complement). -/
def toInt32 (n : Nat) : Int :=
  if u32 n < 2 ^ 31 then (u32 n : Int) else (u32 n : Int) - 2 ^ 32

/-- Value computed and returned by `randomWait(minSecs, maxSecs, seed, cust)` when
`rand_r(seed)` yields `r`: `minSecs + r % (maxSecs - minSecs)` in `unsigned int`
arithmetic.  `none` is the modulo by zero (undefined in C).  The loop that then
blocks for that many clock ticks is part of the thread model below. -/
def randomWait (minSecs maxSecs r : Nat) : Option Nat :=
  let range := u32 (u32 maxSecs + 2 ^ 32 - u32 minSecs)
  if range = 0 then none else some (u32 (u32 minSecs + u32 r % range))

/-! ## Statistics pass -/

/-- Local accumulators of `stats`. -/
structure Totals where
  maxDepth : Int
  maxTransTime : Int
  numServed : Int
  maxCustWait : Int
  totalCustWait : Int
  totalTransTime : Int
  maxTelWait : Int
  totalTelWait : Int
deriving DecidableEq, Repr

/-- Body of the `stats` loop for one customer (lines 319-327). -/
def statsVisit (cust : Customer) (a : Totals) : Totals :=
  let maxDepth := if cust.startingDepth > a.maxDepth then cust.startingDepth else a.maxDepth
  let maxTransTime := if a.maxTransTime < cust.transTime then cust.transTime else a.maxTransTime
  let maxTelWait := if a.maxTelWait < cust.tellWaitTime then cust.tellWaitTime else a.maxTelWait
  let tmpCustWait := cust.endWaitTime - cust.startWaitTime
  let totalCustWait := a.totalCustWait + tmpCustWait
  let maxCustWait := if a.maxCustWait < tmpCustWait then tmpCustWait else a.maxCustWait
  let totalTransTime := a.totalTransTime + cust.transTime
  let numServed := a.numServed + 1
  let totalTelWait := a.totalTelWait + cust.tellWaitTime
  { maxDepth := maxDepth, maxTransTime := maxTransTime, numServed := numServed,
    maxCustWait := maxCustWait, totalCustWait := totalCustWait,
    totalTransTime := totalTransTime, maxTelWait := maxTelWait,
    totalTelWait := totalTelWait }

/-- The `for(;;)` loop of `stats`: leaves at once on `cust == NULL`, otherwise
visits the customer and leaves when `cust->next == NULL`. -/
def statsLoop : List Customer → Totals → Totals
  | [], a => a
  | cust :: rest, a =>
    let a := statsVisit cust a
    match rest with
    | [] => a
    | _ :: _ => statsLoop rest a

/-- C integer division `a / b`: truncation toward zero, `none` when `b = 0`
(division by zero, undefined in C). -/
def cdiv (a b : Int) : Option Int :=
  if b = 0 then none else some (Int.tdiv a b)

/-- The eight values `stats` prints, in print order; a quotient whose divisor is
zero has no defined value. -/
structure Report where
  numServed : Int
  maxDepth : Int
  maxTransTime : Int
  avgTransTime : Option Int
  maxTelWait : Int
  avgTelWait : Option Int
  maxCustWait : Int
  avgCustWait : Option Int
deriving DecidableEq, Repr

/-- Function `stats()` on the served list `bank.served`. -/
def stats (served : List Customer) : Report :=
  let a := statsLoop served
    { maxDepth := 0, maxTransTime := 0, numServed := 0, maxCustWait := 0,
      totalCustWait := 0, totalTransTime := 0, maxTelWait := 0, totalTelWait := 0 }
  { numServed := a.numServed,
    maxDepth := a.maxDepth,
    maxTransTime := a.maxTransTime,
    avgTransTime := cdiv a.totalTransTime a.numServed,
    maxTelWait := a.maxTelWait,
    avgTelWait := cdiv a.totalTelWait a.numServed,
    maxCustWait := a.maxCustWait,
    avgCustWait := cdiv a.totalCustWait a.numServed }

/-! ## Thread model

The program runs one clock thread (`bankClock`), the closing thread (`runBank`), the
generator (`customerGen`), `TELLER_NUM` tellers (`teller`) and `main`.  A state holds
the shared `bank` data and the program point of every thread; one step is the code a
single thread runs between two synchronisation operations (a mutex-protected region,
`sem_wait`, `sem_post`, one return from `pthread_cond_wait`), taken as atomic.  Steps
of different threads interleave in any order.  Values of `rand_r` are inputs of the
step that draws them.  Memory returned by `malloc` is taken as zero-filled, and the
generator's pointer `cust` to a customer it has published is the customer's `id`.
The step `tellerFinish` runs lines 165-168 of one teller without interruption.  The
source takes no lock around `enqueue(cur, &bank.served)`, so that step describes
only the executions in which the appends of two tellers do not overlap; the
overlapping ones are followed on memory with `finishFindTail` and `finishLink`.
-/

/-- Program points of a `teller` thread, with its locals. -/
inductive TellerPc where
  /-- Line 154: about to read `startWait = bank.clock.secs`. -/
  | top
  /-- Line 155: in `sem_wait`. -/
  | idle (startWait : Int)
  /-- Line 157: a permit is taken (`endWait` read), about to call `getNextCust`. -/
  | acquired (startWait endWait : Int)
  /-- Line 162: inside `randomWait` for `cur`; `wait` is its `waitTime`, `counter`
  the ticks still to be waited for, `pending` whether a tick has been broadcast
  since this thread last blocked in `pthread_cond_wait`. -/
  | serving (startWait endWait : Int) (cur : Customer) (wait counter : Nat) (pending : Bool)
  /-- Left the loop at line 159. -/
  | terminated
deriving DecidableEq, Repr

/-- Program points of the `customerGen` thread. -/
inductive GenPc where
  /-- Line 181: about to read `bank.closed`. -/
  | check
  /-- Line 187: inside `randomWait` for the freshly allocated customer. -/
  | waiting (counter : Nat) (pending : Bool)
  /-- Line 140: the customer is enqueued, `sem_post` not yet done. -/
  | post
  /-- Line 190: `addCustomer` has returned, `startWaitTime` not yet stored. -/
  | stamp
  /-- Left the loop at line 184. -/
  | done
deriving DecidableEq, Repr

/-- Locals of `customerGen`: program point and the next `id`. -/
structure Gen where
  pc : GenPc
  id : Int
deriving DecidableEq, Repr

/-- Program points of the `runBank` thread. -/
inductive BankPc where
  /-- Line 254: blocked on the condition `bank.open`. -/
  | waitOpen
  /-- Line 255: released by the signal, `bank.closed` not yet set. -/
  | woken
  /-- Line 261: in the posting loop with loop variable `i`. -/
  | posting (i : Nat)
  /-- Returned. -/
  | done
deriving DecidableEq, Repr

/-- Shared variable `bank` together with the program points of the threads. -/
structure Bank where
  closed : Bool
  secs : Int
  kill : Bool
  customers : Customers
  served : List Customer
  tellers : List TellerPc
  gen : Gen
  runBank : BankPc
deriving DecidableEq, Repr

/-- State set up by `openBank`: every thread at its first statement. -/
def openBank : Bank :=
  { closed := false, secs := 0, kill := false,
    customers := { q := [], semaphore := 0 },
    served := [],
    tellers := List.replicate TELLER_NUM TellerPc.top,
    gen := { pc := GenPc.check, id := 1 },
    runBank := BankPc.waitOpen }

/-- Zero-filled `Customer` as returned by `malloc`. -/
def freshCustomer : Customer :=
  { id := 0, startWaitTime := 0, endWaitTime := 0, tellWaitTime := 0, transTime := 0,
    depth := 0, startingDepth := 0 }

/-- One pass of the `bankClock` loop after the pulse (lines 241-243): the new `secs`
and whether `bank.open` is signalled. -/
def bankClockIter (closingTime secs : Int) : Int × Bool :=
  let secs := secs + 1
  (secs, decide (secs > closingTime))

/-- Effect of the tick broadcast on a teller: one blocked in `randomWait` is released. -/
def tickTeller : TellerPc → TellerPc
  | TellerPc.serving sw ew cur w n _ => TellerPc.serving sw ew cur w n true
  | t => t

/-- Effect of the tick broadcast on the generator. -/
def tickGen : GenPc → GenPc
  | GenPc.waiting n _ => GenPc.waiting n true
  | pc => pc

/-- Clock thread, one loop pass (lines 239-243). -/
def tick (closingTime : Int) (s : Bank) : Option Bank :=
  if s.kill then none
  else
    let r := bankClockIter closingTime s.secs
    some { s with
      secs := r.1,
      tellers := s.tellers.map tickTeller,
      gen := { s.gen with pc := tickGen s.gen.pc },
      runBank := if r.2 && s.runBank == BankPc.waitOpen then BankPc.woken else s.runBank }

/-- Generator, lines 181-187: reads `bank.closed`; when open, allocates the customer
and enters `randomWait(60, 240)` with `rand_r` value `r`. -/
def genCheck (s : Bank) (r : Nat) : Option Bank :=
  match s.gen.pc with
  | GenPc.check =>
    if s.closed then some { s with gen := { s.gen with pc := GenPc.done } }
    else
      match randomWait 60 (4 * 60) r with
      | none => none
      | some w => some { s with gen := { s.gen with pc := GenPc.waiting w false } }
  | _ => none

/-- Generator, one return from `pthread_cond_wait` in `randomWait` (lines 73-74). -/
def genWake (s : Bank) : Option Bank :=
  match s.gen.pc with
  | GenPc.waiting (n + 1) true => some { s with gen := { s.gen with pc := GenPc.waiting n false } }
  | _ => none

/-- Generator, lines 188-189 up to the unlock in `addCustomer`: sets the `id` and
enqueues the customer under the queue lock. -/
def genEnqueue (s : Bank) : Option Bank :=
  match s.gen.pc with
  | GenPc.waiting 0 _ =>
    let cust := { freshCustomer with id := s.gen.id }
    some { s with
      customers := { s.customers with q := addCustomerLocked cust s.customers.q },
      gen := { s.gen with pc := GenPc.post } }
  | _ => none

/-- Generator, line 140: `sem_post` at the end of `addCustomer`. -/
def genPost (s : Bank) : Option Bank :=
  match s.gen.pc with
  | GenPc.post =>
    some { s with
      customers := { s.customers with semaphore := s.customers.semaphore + 1 },
      gen := { s.gen with pc := GenPc.stamp } }
  | _ => none

/-- Store `cust->startWaitTime = secs` through the generator's pointer to customer `id`. -/
def stampCust (id secs : Int) (c : Customer) : Customer :=
  if c.id = id then { c with startWaitTime := secs } else c

/-- The same store when the customer is in a teller's hands. -/
def stampTeller (id secs : Int) : TellerPc → TellerPc
  | TellerPc.serving sw ew cur w n p => TellerPc.serving sw ew (stampCust id secs cur) w n p
  | t => t

/-- Generator, lines 190-191: `cust->startWaitTime = bank.clock.secs; id++`.  The
customer is wherever it has got to by now: queue, teller or served list. -/
def genStamp (s : Bank) : Option Bank :=
  match s.gen.pc with
  | GenPc.stamp =>
    some { s with
      customers := { s.customers with q := s.customers.q.map (stampCust s.gen.id s.secs) },
      tellers := s.tellers.map (stampTeller s.gen.id s.secs),
      served := s.served.map (stampCust s.gen.id s.secs),
      gen := { pc := GenPc.check, id := s.gen.id + 1 } }
  | _ => none

/-- Teller `i`, line 154: `startWait = bank.clock.secs`. -/
def tellerTop (s : Bank) (i : Nat) : Option Bank :=
  match s.tellers[i]? with
  | some TellerPc.top => some { s with tellers := s.tellers.set i (TellerPc.idle s.secs) }
  | _ => none

/-- Teller `i`, lines 155-156: `sem_wait` returns with a permit, `endWait` is read. -/
def tellerAcquire (s : Bank) (i : Nat) : Option Bank :=
  match s.tellers[i]? with
  | some (TellerPc.idle sw) =>
    if 0 < s.customers.semaphore then
      some { s with
        customers := { s.customers with semaphore := s.customers.semaphore - 1 },
        tellers := s.tellers.set i (TellerPc.acquired sw s.secs) }
    else none
  | _ => none

/-- Teller `i`, lines 157-162: `getNextCust`; on `NULL` the thread ends, otherwise
`endWaitTime` is stored and `randomWait(30, 360)` is entered with `rand_r` value `r`. -/
def tellerDequeue (s : Bank) (i r : Nat) : Option Bank :=
  match s.tellers[i]? with
  | some (TellerPc.acquired sw ew) =>
    match getNextCust s.customers with
    | (none, customers) =>
      some { s with customers := customers, tellers := s.tellers.set i TellerPc.terminated }
    | (some cur, customers) =>
      let cur := { cur with endWaitTime := s.secs }
      match randomWait 30 (60 * 6) r with
      | none => none
      | some w =>
        some { s with
          customers := customers,
          tellers := s.tellers.set i (TellerPc.serving sw ew cur w w false) }
  | _ => none

/-- Teller `i`, one return from `pthread_cond_wait` in `randomWait` (lines 73-74). -/
def tellerWake (s : Bank) (i : Nat) : Option Bank :=
  match s.tellers[i]? with
  | some (TellerPc.serving sw ew cur w (n + 1) true) =>
    some { s with tellers := s.tellers.set i (TellerPc.serving sw ew cur w n false) }
  | _ => none

/-- Teller `i`, lines 165-168: `randomWait` has returned; the statistics are stored
and the customer is appended to `bank.served`, the whole run without interruption
by another teller's append (the source holds no lock here; `finishFindTail` and
`finishLink` are the two halves another teller can get between). -/
def tellerFinish (s : Bank) (i : Nat) : Option Bank :=
  match s.tellers[i]? with
  | some (TellerPc.serving sw ew cur w 0 _) =>
    let cur := { cur with endWaitTime := s.secs }
    let cur := { cur with transTime := toInt32 w }
    let cur := { cur with tellWaitTime := ew - sw }
    some { s with
      served := (enqueue (some cur) s.served).2,
      tellers := s.tellers.set i TellerPc.top }
  | _ => none

/-- Closing thread, lines 255-258: `bank.closed = 1` under the bank lock. -/
def bankClose (s : Bank) : Option Bank :=
  match s.runBank with
  | BankPc.woken => some { s with closed := true, runBank := BankPc.posting 0 }
  | _ => none

/-- Closing thread, one pass of the loop at lines 261-263. -/
def bankPost (s : Bank) : Option Bank :=
  match s.runBank with
  | BankPc.posting i =>
    if i < TELLER_NUM then
      some { s with
        customers := { s.customers with semaphore := s.customers.semaphore + 1 },
        runBank := BankPc.posting (i + 1) }
    else some { s with runBank := BankPc.done }
  | _ => none

/-- Function `closeBank()` in `main`: once every teller has been joined, sets
`bank.clock.kill`. -/
def closeBank (s : Bank) : Option Bank :=
  if s.tellers.all (fun t => t == TellerPc.terminated) then some { s with kill := true }
  else none

/-- Steps of the model: which thread moves, with the `rand_r` value it draws. -/
inductive Action where
  | tick
  | genCheck (r : Nat)
  | genWake
  | genEnqueue
  | genPost
  | genStamp
  | tellerTop (i : Nat)
  | tellerAcquire (i : Nat)
  | tellerDequeue (i r : Nat)
  | tellerWake (i : Nat)
  | tellerFinish (i : Nat)
  | bankClose
  | bankPost
  | closeBank
deriving DecidableEq, Repr

/-- One step; `none` when the step is not enabled in the state.  `closingTime` is
the argument of `bankClock`. -/
def step (closingTime : Int) (s : Bank) : Action → Option Bank
  | Action.tick => tick closingTime s
  | Action.genCheck r => genCheck s r
  | Action.genWake => genWake s
  | Action.genEnqueue => genEnqueue s
  | Action.genPost => genPost s
  | Action.genStamp => genStamp s
  | Action.tellerTop i => tellerTop s i
  | Action.tellerAcquire i => tellerAcquire s i
  | Action.tellerDequeue i r => tellerDequeue s i r
  | Action.tellerWake i => tellerWake s i
  | Action.tellerFinish i => tellerFinish s i
  | Action.bankClose => bankClose s
  | Action.bankPost => bankPost s
  | Action.closeBank => closeBank s

/-- Runs a schedule from a state; `none` if some step is not enabled. -/
def run (closingTime : Int) : List Action → Bank → Option Bank
  | [], s => some s
  | a :: as, s =>
    match step closingTime s a with
    | none => none
    | some s1 => run closingTime as s1

/-- States the program can reach from `openBank` under some schedule. -/
def Reachable (closingTime : Int) (s : Bank) : Prop :=
  ∃ acts : List Action, run closingTime acts openBank = some s

/-! ## Observations on states -/

/-- Teller holds a semaphore permit it has not yet used for `getNextCust`. -/
def TellerPc.isAcquired : TellerPc → Bool
  | TellerPc.acquired _ _ => true
  | _ => false

/-- Teller has left its loop. -/
def TellerPc.isTerminated : TellerPc → Bool
  | TellerPc.terminated => true
  | _ => false

/-- Teller is in the middle of a transaction (holds a dequeued customer). -/
def TellerPc.isServing : TellerPc → Bool
  | TellerPc.serving _ _ _ _ _ _ => true
  | _ => false

/-- Customer a teller holds, if any. -/
def TellerPc.cur : TellerPc → Option Customer
  | TellerPc.serving _ _ c _ _ _ => some c
  | _ => none

/-- Number of permits the closing loop of `runBank` has posted so far. -/
def BankPc.posted : BankPc → Nat
  | BankPc.waitOpen => 0
  | BankPc.woken => 0
  | BankPc.posting i => i
  | BankPc.done => TELLER_NUM

/-- One when the generator has enqueued a customer whose `sem_post` is still to come. -/
def GenPc.pendingPost : GenPc → Nat
  | GenPc.post => 1
  | _ => 0

/-- One when the current loop pass of the generator has already enqueued its customer. -/
def GenPc.added : GenPc → Nat
  | GenPc.post => 1
  | GenPc.stamp => 1
  | _ => 0

/-- Number of customers the generator has enqueued so far: the completed loop
passes (`id - 1`, as `id` starts at 1 and is incremented at the end of a pass) plus
the customer of the current pass once it is enqueued. -/
def generated (g : Gen) : Int :=
  g.id - 1 + g.pc.added

/-- Customers in the tellers' hands. -/
def inService (s : Bank) : List Customer :=
  s.tellers.filterMap TellerPc.cur

/-- Every customer of the state: queue, tellers' hands, served list. -/
def allCustomers (s : Bank) : List Customer :=
  s.customers.q ++ inService s ++ s.served

/-! ## Sequences of queue operations -/

/-- One call on a queue: `enqueue(c, &q)` or `dequeue(&q)`. -/
inductive QueueOp where
  | enq (c : Customer)
  | deq
deriving DecidableEq, Repr

/-- Runs the calls in order on the queue; returns the customers handed back by the
dequeues that found a customer, and the final queue. -/
def runOps : List QueueOp → List Customer → List Customer × List Customer
  | [], q => ([], q)
  | QueueOp.enq c :: ops, q => runOps ops (enqueue (some c) q).2
  | QueueOp.deq :: ops, q =>
    match dequeue q with
    | (none, q1) => runOps ops q1
    | (some c, q1) =>
      let r := runOps ops q1
      (c :: r.1, r.2)

/-- Customers passed to `enqueue`, in call order. -/
def enqueuedOf : List QueueOp → List Customer
  | [] => []
  | QueueOp.enq c :: ops => c :: enqueuedOf ops
  | QueueOp.deq :: ops => enqueuedOf ops

/-- The customer with the queue-position bookkeeping field `depth` blanked: two
records agree under `sameNode` when every other field agrees. -/
def sameNode (c : Customer) : Customer :=
  { c with depth := 0 }

/-! ## Invariants of the thread model -/

/-- Permit accounting: permits in the semaphore, permits taken but not yet used,
permits used up by tellers that found the queue empty, and the permit the generator
still owes for its enqueued customer, add up to the queued customers plus the
permits posted by the closing loop.  Also: there are `TELLER_NUM` tellers, the loop
posts at most `TELLER_NUM` permits, and a teller only terminates on a posted permit. -/
def PermitInv (s : Bank) : Prop :=
  s.customers.semaphore + s.tellers.countP TellerPc.isAcquired
      + s.tellers.countP TellerPc.isTerminated + s.gen.pc.pendingPost
    = s.customers.q.length + s.runBank.posted
  ∧ s.tellers.length = TELLER_NUM
  ∧ s.runBank.posted ≤ TELLER_NUM
  ∧ s.tellers.countP TellerPc.isTerminated ≤ s.runBank.posted

/-- Identifiers `1, ..., n`. -/
def idList (n : Nat) : List Int :=
  (List.range n).map (fun (k : Nat) => (k : Int) + 1)

/-- Multiset of the identifiers of a list of customers. -/
def idBag (l : List Customer) : Multiset Int :=
  Multiset.ofList (l.map Customer.id)

/-- Customer accounting: `id` is one more than the number of completed generator
passes, and the customers of the state carry exactly the identifiers handed out so
far, each once. -/
def CustInv (s : Bank) : Prop :=
  ∃ n : Nat, s.gen.id = (n : Int) + 1 ∧
    idBag (allCustomers s) = Multiset.ofList (idList (n + s.gen.pc.added))

/-- The `wait` local of a serving teller lies in the configured range. -/
def TellerPc.waitInRange : TellerPc → Prop
  | TellerPc.serving _ _ _ w _ _ => 30 ≤ w ∧ w ≤ 360
  | _ => True

/-- Transaction times, drawn and recorded, lie in the configured range. -/
def RangeInv (s : Bank) : Prop :=
  (∀ t ∈ s.tellers, t.waitInRange) ∧
  (∀ c ∈ s.served, 30 ≤ c.transTime ∧ c.transTime ≤ 360)

/-! ## Concrete schedules -/

/-- Schedule in which the generator draws `rand_r = 0` (a delay of 60 ticks), teller 0
takes the first customer at tick 60 with `rand_r = 0` (a transaction of 30 ticks)
and appends it to the served list at tick 90. -/
def serveOne : List Action :=
  [Action.genCheck 0, Action.tellerTop 0]
    ++ (List.replicate 60 [Action.tick, Action.genWake]).flatten
    ++ [Action.genEnqueue, Action.genPost, Action.genStamp,
        Action.tellerAcquire 0, Action.tellerDequeue 0 0]
    ++ (List.replicate 30 [Action.tick, Action.tellerWake 0]).flatten
    ++ [Action.tellerFinish 0]

/-- State reached by `serveOne`. -/
def afterServeOne : Bank :=
  { closed := false, secs := 90, kill := false,
    customers := { q := [], semaphore := 0 },
    served := [{ id := 1, startWaitTime := 60, endWaitTime := 90, tellWaitTime := 60,
                 transTime := 30, depth := 1, startingDepth := 1 }],
    tellers := [TellerPc.top, TellerPc.top, TellerPc.top],
    gen := { pc := GenPc.check, id := 2 },
    runBank := BankPc.waitOpen }

/-- Schedule up to the moment teller 0 has dequeued the first customer (tick 60). -/
def untilDequeue : List Action :=
  [Action.genCheck 0, Action.tellerTop 0]
    ++ (List.replicate 60 [Action.tick, Action.genWake]).flatten
    ++ [Action.genEnqueue, Action.genPost, Action.genStamp,
        Action.tellerAcquire 0, Action.tellerDequeue 0 0]

/-- Rest of the transaction of teller 0: 30 ticks, then lines 165-168. -/
def transaction : List Action :=
  (List.replicate 30 [Action.tick, Action.tellerWake 0]).flatten ++ [Action.tellerFinish 0]

/-- Schedule in which the generator is not run between `addCustomer` (line 189) and
the store of `startWaitTime` (line 190) until teller 0 has served the customer. -/
def lateStamp : List Action :=
  [Action.genCheck 0, Action.tellerTop 0]
    ++ (List.replicate 60 [Action.tick, Action.genWake]).flatten
    ++ [Action.genEnqueue, Action.genPost,
        Action.tellerAcquire 0, Action.tellerDequeue 0 0]
    ++ (List.replicate 30 [Action.tick, Action.tellerWake 0]).flatten
    ++ [Action.tellerFinish 0, Action.tick, Action.genStamp]

/-- Schedule after which customer 1 is served, customer 2 is with teller 1 and
customer 3 is queued. -/
def busyDay : List Action :=
  serveOne
    ++ [Action.genCheck 0, Action.tellerTop 1]
    ++ (List.replicate 60 [Action.tick, Action.genWake]).flatten
    ++ [Action.genEnqueue, Action.genPost, Action.genStamp,
        Action.tellerAcquire 1, Action.tellerDequeue 1 100, Action.genCheck 0]
    ++ (List.replicate 60 [Action.tick, Action.genWake, Action.tellerWake 1]).flatten
    ++ [Action.genEnqueue, Action.genPost, Action.genStamp]

/-- State reached by `untilDequeue`: teller 0 has just dequeued customer 1. -/
def atDequeue : Bank :=
  { closed := false, secs := 60, kill := false,
    customers := { q := [], semaphore := 0 },
    served := [],
    tellers := [TellerPc.serving 0 60
                  { id := 1, startWaitTime := 60, endWaitTime := 60, tellWaitTime := 0,
                    transTime := 0, depth := 1, startingDepth := 1 } 30 30 false,
                TellerPc.top, TellerPc.top],
    gen := { pc := GenPc.check, id := 2 },
    runBank := BankPc.waitOpen }

/-- State reached by `lateStamp`. -/
def afterLateStamp : Bank :=
  { closed := false, secs := 91, kill := false,
    customers := { q := [], semaphore := 0 },
    served := [{ id := 1, startWaitTime := 91, endWaitTime := 90, tellWaitTime := 60,
                 transTime := 30, depth := 1, startingDepth := 1 }],
    tellers := [TellerPc.top, TellerPc.top, TellerPc.top],
    gen := { pc := GenPc.check, id := 2 },
    runBank := BankPc.waitOpen }

/-- State reached by `busyDay`. -/
def afterBusyDay : Bank :=
  { closed := false, secs := 210, kill := false,
    customers :=
      { q := [{ id := 3, startWaitTime := 210, endWaitTime := 0, tellWaitTime := 0,
                transTime := 0, depth := 1, startingDepth := 1 }],
        semaphore := 1 },
    served := [{ id := 1, startWaitTime := 60, endWaitTime := 90, tellWaitTime := 60,
                 transTime := 30, depth := 1, startingDepth := 1 }],
    tellers := [TellerPc.top,
                TellerPc.serving 90 150
                  { id := 2, startWaitTime := 150, endWaitTime := 150, tellWaitTime := 0,
                    transTime := 0, depth := 1, startingDepth := 1 } 130 70 false,
                TellerPc.top],
    gen := { pc := GenPc.check, id := 4 },
    runBank := BankPc.waitOpen }

/-- Guard of the next step of a teller: whether the thread can move in a state whose
semaphore holds `semaphore` permits (`sem_wait` needs a permit; a teller blocked in
`pthread_cond_wait` needs a tick). -/
def TellerPc.canStep (semaphore : Nat) : TellerPc → Bool
  | TellerPc.top => true
  | TellerPc.idle _ => decide (0 < semaphore)
  | TellerPc.acquired _ _ => true
  | TellerPc.serving _ _ _ _ 0 _ => true
  | TellerPc.serving _ _ _ _ (_ + 1) pending => pending
  | TellerPc.terminated => false

/-- Teller is neither terminated nor holding an unconsumed permit. -/
def TellerPc.isWorking (t : TellerPc) : Bool :=
  !t.isTerminated && !t.isAcquired

/-- State at clock `k` in which the generator, with `rand_r = 0`, is inside its first
arrival delay (60 ticks still to wait for) and no teller has run yet. -/
def dozing (k : Int) : Bank :=
  { closed := false, secs := k, kill := false,
    customers := { q := [], semaphore := 0 },
    served := [],
    tellers := [TellerPc.top, TellerPc.top, TellerPc.top],
    gen := { pc := GenPc.waiting 60 true, id := 1 },
    runBank := BankPc.waitOpen }

/-- Start of the day: the generator enters its first delay and the clock ticks once. -/
def dayStart : List Action :=
  [Action.genCheck 0, Action.tick]

/-- Closing: the tick that takes the clock past `openTimeSecs` releases `runBank`,
which sets `closed` and runs its posting loop to the end; the generator then
completes its delay and enqueues customer 1 (`sem_post` still to come). -/
def closingArrival : List Action :=
  [Action.tick, Action.bankClose, Action.bankPost, Action.bankPost, Action.bankPost,
    Action.bankPost, Action.genWake]
    ++ (List.replicate 59 [Action.tick, Action.genWake]).flatten
    ++ [Action.genEnqueue]

/-- Whole schedule up to the generator's `sem_post` for the customer that arrives
after closing. -/
def lateArrival : List Action :=
  dayStart ++ List.replicate 3599 Action.tick ++ closingArrival

/-- State reached by `lateArrival`. -/
def beforeLatePost : Bank :=
  { closed := true, secs := 3660, kill := false,
    customers :=
      { q := [{ id := 1, startWaitTime := 0, endWaitTime := 0, tellWaitTime := 0,
                transTime := 0, depth := 1, startingDepth := 1 }],
        semaphore := 3 },
    served := [],
    tellers := [TellerPc.top, TellerPc.top, TellerPc.top],
    gen := { pc := GenPc.post, id := 1 },
    runBank := BankPc.done }

/-- State after the `sem_post` of `addCustomer` in `beforeLatePost`. -/
def afterLatePost : Bank :=
  { beforeLatePost with
    customers := { beforeLatePost.customers with semaphore := 4 },
    gen := { pc := GenPc.stamp, id := 1 } }

/-- Rest of the day after `afterLatePost`: the generator stamps the customer and
stops; teller 0 serves customer 1 and then, like tellers 1 and 2, finds the queue
empty on a permit of the closing loop and terminates. -/
def shutdown : List Action :=
  [Action.genStamp, Action.genCheck 0,
    Action.tellerTop 0, Action.tellerAcquire 0, Action.tellerDequeue 0 0]
    ++ (List.replicate 30 [Action.tick, Action.tellerWake 0]).flatten
    ++ [Action.tellerFinish 0,
        Action.tellerTop 0, Action.tellerAcquire 0, Action.tellerDequeue 0 0,
        Action.tellerTop 1, Action.tellerAcquire 1, Action.tellerDequeue 1 0,
        Action.tellerTop 2, Action.tellerAcquire 2, Action.tellerDequeue 2 0]

/-- State reached by `shutdown` from `afterLatePost`. -/
def closedDown : Bank :=
  { closed := true, secs := 3690, kill := false,
    customers := { q := [], semaphore := 0 },
    served := [{ id := 1, startWaitTime := 3660, endWaitTime := 3690, tellWaitTime := 0,
                 transTime := 30, depth := 1, startingDepth := 1 }],
    tellers := [TellerPc.terminated, TellerPc.terminated, TellerPc.terminated],
    gen := { pc := GenPc.done, id := 2 },
    runBank := BankPc.done }

/-- Schedule up to the first `sem_post` of the generator. -/
def firstArrival : List Action :=
  [Action.genCheck 0]
    ++ (List.replicate 60 [Action.tick, Action.genWake]).flatten
    ++ [Action.genEnqueue]

/-- State reached by `firstArrival`. -/
def beforeFirstPost : Bank :=
  { closed := false, secs := 60, kill := false,
    customers :=
      { q := [{ id := 1, startWaitTime := 0, endWaitTime := 0, tellWaitTime := 0,
                transTime := 0, depth := 1, startingDepth := 1 }],
        semaphore := 0 },
    served := [],
    tellers := [TellerPc.top, TellerPc.top, TellerPc.top],
    gen := { pc := GenPc.post, id := 1 },
    runBank := BankPc.waitOpen }

/-- State after the `sem_post` of `addCustomer` in `beforeFirstPost`. -/
def afterFirstPost : Bank :=
  { beforeFirstPost with
    customers := { beforeFirstPost.customers with semaphore := 1 },
    gen := { pc := GenPc.stamp, id := 1 } }

/-! ## Clock loop -/

/-- The first `n` passes of the `bankClock` loop (lines 238-244) with `kill` unset,
from clock value `secs`: the final `secs` and, pass by pass, whether `bank.open`
was signalled. -/
def bankClockLoop (closingTime : Int) : Nat → Int → Int × List Bool
  | 0, secs => (secs, [])
  | n + 1, secs =>
    let r := bankClockIter closingTime secs
    let rest := bankClockLoop closingTime n r.1
    (rest.1, r.2 :: rest.2)

/-! ## Pointer-level reading of `dequeue` -/

/-- A `struct Customer` in memory: the data fields and the `next` pointer (`none`
is `NULL`, `some a` the node at address `a`). -/
structure Node where
  cust : Customer
  next : Option Nat
deriving DecidableEq, Repr

/-- Memory: the node stored at every address. -/
abbrev Heap := Nat → Node

/-- Function `dequeue(queue)` on memory `h` with `*queue = queue`: the returned
pointer, the new `*queue` and the new memory (line 105 clears `head->next`). -/
def dequeuePtr (h : Heap) (queue : Option Nat) : Option Nat × Option Nat × Heap :=
  match queue with
  | none => (none, none, h)
  | some head =>
    let queue1 :=
      match (h head).next with
      | some next => some next
      | none => none
    (some head, queue1, Function.update h head { h head with next := none })

/-- The chain that starts at pointer `p` in memory `h` visits exactly the addresses
`as`, in order, and ends in `NULL`. -/
def Chain (h : Heap) : Option Nat → List Nat → Prop
  | p, [] => p = none
  | p, a :: as => p = some a ∧ Chain h (h a).next as

/-- Customers stored at the addresses `as`: the list that represents the chain. -/
def customersAt (h : Heap) (as : List Nat) : List Customer :=
  as.map (fun a => (h a).cust)

/-- Memory with customer 1 at address 10 and customer 2 at address 20, linked
`10 -> 20 -> NULL`. -/
def twoNodes : Heap := fun a =>
  if a = 10 then
    { cust := { freshCustomer with id := 1, depth := 1, startingDepth := 1 },
      next := some 20 }
  else if a = 20 then
    { cust := { freshCustomer with id := 2, depth := 2, startingDepth := 2 },
      next := none }
  else { cust := freshCustomer, next := none }

/-! ## Reference statistics -/

/-- Greatest value of a list of integers (0 for the empty list). -/
def greatest : List Int → Int
  | [] => 0
  | [x] => x
  | x :: y :: rest => max x (greatest (y :: rest))

/-- Greatest value of the list, or 0 when all values are negative. -/
def greatestOrZero (xs : List Int) : Int :=
  if xs.all (fun x => decide (x < 0)) then 0 else greatest xs

/-- Reference definition of the report, in the words of the specification: the
number served, the greatest `startingDepth`, for transaction time, teller wait
time and customer wait time (`endWaitTime - startWaitTime`) the greatest value in
the list or 0 when all are negative, and each average the truncated integer
quotient of the sum by the number served. -/
def statsReference (served : List Customer) : Report :=
  let n : Int := served.length
  { numServed := n,
    maxDepth := greatest (served.map Customer.startingDepth),
    maxTransTime := greatestOrZero (served.map Customer.transTime),
    avgTransTime := some (Int.tdiv (served.map Customer.transTime).sum n),
    maxTelWait := greatestOrZero (served.map Customer.tellWaitTime),
    avgTelWait := some (Int.tdiv (served.map Customer.tellWaitTime).sum n),
    maxCustWait := greatestOrZero (served.map (fun c => c.endWaitTime - c.startWaitTime)),
    avgCustWait :=
      some (Int.tdiv (served.map (fun c => c.endWaitTime - c.startWaitTime)).sum n) }

/-- Every customer of the state (queue, tellers' hands, served list) has a
`startingDepth` of at least 1. -/
def DepthInv (s : Bank) : Prop :=
  (∀ c ∈ s.customers.q, 1 ≤ c.startingDepth) ∧
  (∀ t ∈ s.tellers, ∀ c, t.cur = some c → 1 ≤ c.startingDepth) ∧
  (∀ c ∈ s.served, 1 ≤ c.startingDepth)

/-- State in which teller 1 has finished waiting for customer 2 (clock 280) while
customer 1 is already in the served list. -/
def beforeFinish : Bank :=
  { closed := false, secs := 280, kill := false,
    customers := { q := [], semaphore := 0 },
    served := [{ id := 1, startWaitTime := 60, endWaitTime := 90, tellWaitTime := 60,
                 transTime := 30, depth := 1, startingDepth := 1 }],
    tellers := [TellerPc.top,
                TellerPc.serving 90 150
                  { id := 2, startWaitTime := 150, endWaitTime := 150, tellWaitTime := 0,
                    transTime := 0, depth := 1, startingDepth := 1 } 130 0 false,
                TellerPc.top],
    gen := { pc := GenPc.check, id := 3 },
    runBank := BankPc.waitOpen }

/-! ## Pointer-level reading of `enqueue` and the unlocked served append

`teller` calls `enqueue(cur, &bank.served)` (line 168) without holding any lock,
unlike `addCustomer` and `getNextCust`, which hold `bank.customers.lock`.  Between
the read of the tail (line 113) and the link (lines 116/119) of one teller another
teller can run the same lines.  The definitions below make that point of `enqueue`
explicit on memory with `next` pointers. -/

/-- Function `traverse(head, depth)` on memory `h`: the new memory, the returned
node and the final `*depth`.  `none` when `fuel` calls do not reach a node whose
`next` is `NULL`. -/
def traversePtr : Nat → Heap → Option Nat → Int → Option (Heap × Option Nat × Int)
  | _, h, none, depth => some (h, none, depth)
  | 0, _, some _, _ => none
  | fuel + 1, h, some head, depth =>
    let depth := depth + 1
    let h := Function.update h head
      { h head with cust := { (h head).cust with depth := depth } }
    match (h head).next with
    | none => some (h, some head, depth)
    | some next => traversePtr fuel h (some next) depth

/-- Function `findTail(head)` on memory. -/
def findTailPtr (fuel : Nat) (h : Heap) (head : Option Nat) :
    Option (Heap × Option Nat × Int) :=
  traversePtr fuel h head 0

/-- Lines 114-121 of `enqueue(cust, queue)` on memory, for the `tail` that line 113
found: the returned depth, the new `*queue` and the new memory. -/
def enqueueLinkPtr (h : Heap) (cust : Nat) (tail queue : Option Nat) :
    Int × Option Nat × Heap :=
  match tail with
  | none =>
    let h := Function.update h cust { h cust with cust := { (h cust).cust with depth := 1 } }
    ((h cust).cust.depth, some cust, h)
  | some tail =>
    let h := Function.update h cust
      { h cust with cust := { (h cust).cust with depth := (h tail).cust.depth + 1 } }
    let h := Function.update h tail { h tail with next := some cust }
    ((h cust).cust.depth, queue, h)

/-- Function `enqueue(cust, queue)` on memory, run without interruption. -/
def enqueuePtr (fuel : Nat) (h : Heap) (cust queue : Option Nat) :
    Option (Int × Option Nat × Heap) :=
  match cust with
  | none => some (0, queue, h)
  | some cust =>
    match findTailPtr fuel h queue with
    | none => none
    | some (h, tail, _) => some (enqueueLinkPtr h cust tail queue)

theorem traverse_chain_sameNode (q : List Customer) (d : Int) :
    (traverse q d).chain.map sameNode = q.map sameNode := by
  induction q generalizing d with
  | nil => simp [traverse]
  | cons c rest ih =>
    cases rest with
    | nil => simp [traverse, sameNode]
    | cons c2 rest2 =>
      have h := ih (d + 1)
      simp only [traverse, List.map_cons] at h ⊢
      rw [h]
      simp [sameNode]

theorem traverse_tail_none (q : List Customer) (d : Int) :
    (traverse q d).tail = none ↔ q = [] := by
  induction q generalizing d with
  | nil => simp [traverse]
  | cons c rest ih =>
    cases rest with
    | nil => simp [traverse]
    | cons c2 rest2 =>
      have h := ih (d + 1)
      simp only [traverse] at h ⊢
      simpa using h

theorem traverse_depth (q : List Customer) (d : Int) :
    (traverse q d).depth = d + q.length := by
  induction q generalizing d with
  | nil => simp [traverse]
  | cons c rest ih =>
    cases rest with
    | nil => simp [traverse]
    | cons c2 rest2 =>
      have h := ih (d + 1)
      simp only [traverse] at h ⊢
      rw [h]
      simp only [List.length_cons]
      push_cast
      ring

theorem traverse_length (q : List Customer) (d : Int) :
    (traverse q d).chain.length = q.length := by
  have h := congrArg List.length (traverse_chain_sameNode q d)
  simpa using h

theorem traverse_tail_depth (q : List Customer) (d : Int) (t : Customer)
    (h : (traverse q d).tail = some t) : t.depth = d + q.length := by
  induction q generalizing d with
  | nil => simp [traverse] at h
  | cons c rest ih =>
    cases rest with
    | nil =>
      simp only [traverse, Option.some.injEq] at h
      subst h
      simp
    | cons c2 rest2 =>
      have h2 := ih (d + 1)
      simp only [traverse] at h h2
      rw [h2 h]
      simp only [List.length_cons]
      push_cast
      ring

theorem traverse_nil_chain (d : Int) : (traverse [] d).chain = [] := by
  simp [traverse]

/-- Closed form of `enqueue` on a non-`NULL` customer: the walked chain with the
customer appended at depth `length + 1`, which is also the returned value. -/
theorem enqueue_some (c : Customer) (q : List Customer) :
    enqueue (some c) q
      = ((q.length : Int) + 1,
          (traverse q 0).chain ++ [{ c with depth := (q.length : Int) + 1 }]) := by
  unfold enqueue findTail
  cases ht : (traverse q 0).tail with
  | none =>
    have hq : q = [] := (traverse_tail_none q 0).mp ht
    subst hq
    simp [traverse]
  | some t =>
    have hd := traverse_tail_depth q 0 t ht
    simp only [ht, hd, zero_add]

theorem enqueue_sameNode (c : Customer) (q : List Customer) :
    (enqueue (some c) q).2.map sameNode = q.map sameNode ++ [sameNode c] := by
  rw [enqueue_some]
  simp only [List.map_append, traverse_chain_sameNode, List.map_cons, List.map_nil]
  simp [sameNode]

theorem runOps_sameNode (ops : List QueueOp) (q : List Customer) :
    (runOps ops q).1.map sameNode ++ (runOps ops q).2.map sameNode
      = q.map sameNode ++ (enqueuedOf ops).map sameNode := by
  induction ops generalizing q with
  | nil => simp [runOps, enqueuedOf]
  | cons op ops ih =>
    cases op with
    | enq c =>
      simp only [runOps, enqueuedOf]
      rw [ih, enqueue_sameNode]
      simp
    | deq =>
      cases q with
      | nil =>
        simp only [runOps, dequeue, enqueuedOf]
        exact ih []
      | cons c rest =>
        simp only [runOps, dequeue, enqueuedOf, List.map_cons, List.cons_append]
        rw [ih rest]

/-! ## Lemmas on the thread model -/

theorem countP_set_add {α : Type} (p : α → Bool) (l : List α) (i : Nat) (old new : α)
    (h : l[i]? = some old) :
    (l.set i new).countP p + (if p old then 1 else 0)
      = l.countP p + (if p new then 1 else 0) := by
  induction l generalizing i with
  | nil => simp at h
  | cons a l ih =>
    cases i with
    | zero =>
      simp only [List.getElem?_cons_zero, Option.some.injEq] at h
      subst h
      simp only [List.set_cons_zero, List.countP_cons]
      omega
    | succ i =>
      simp only [List.getElem?_cons_succ] at h
      have := ih i h
      simp only [List.set_cons_succ, List.countP_cons]
      omega

theorem countP_map_of_eq {α : Type} (p : α → Bool) (f : α → α) (l : List α)
    (h : ∀ a, p (f a) = p a) : (l.map f).countP p = l.countP p := by
  induction l with
  | nil => rfl
  | cons a l ih => simp [List.countP_cons, ih, h]

theorem setStartingDepth_length (l : List Customer) :
    (setStartingDepth l).length = l.length := by
  induction l with
  | nil => rfl
  | cons c l ih =>
    cases l with
    | nil => rfl
    | cons d rest => simpa [setStartingDepth] using ih

theorem addCustomerLocked_length (c : Customer) (q : List Customer) :
    (addCustomerLocked c q).length = q.length + 1 := by
  unfold addCustomerLocked
  rw [setStartingDepth_length, enqueue_some]
  simp [traverse_length]

theorem permitInv_openBank : PermitInv openBank := by
  simp [PermitInv, openBank, TELLER_NUM, TellerPc.isAcquired, TellerPc.isTerminated,
    GenPc.pendingPost, BankPc.posted, List.replicate]

@[simp] theorem tickTeller_isAcquired (t : TellerPc) :
    (tickTeller t).isAcquired = t.isAcquired := by
  cases t <;> rfl

@[simp] theorem tickTeller_isTerminated (t : TellerPc) :
    (tickTeller t).isTerminated = t.isTerminated := by
  cases t <;> rfl

@[simp] theorem tickTeller_isServing (t : TellerPc) :
    (tickTeller t).isServing = t.isServing := by
  cases t <;> rfl

@[simp] theorem tickTeller_cur (t : TellerPc) : (tickTeller t).cur = t.cur := by
  cases t <;> rfl

@[simp] theorem tickGen_pendingPost (pc : GenPc) :
    (tickGen pc).pendingPost = pc.pendingPost := by
  cases pc <;> rfl

@[simp] theorem tickGen_added (pc : GenPc) : (tickGen pc).added = pc.added := by
  cases pc <;> rfl

@[simp] theorem stampTeller_isAcquired (id secs : Int) (t : TellerPc) :
    (stampTeller id secs t).isAcquired = t.isAcquired := by
  cases t <;> rfl

@[simp] theorem stampTeller_isTerminated (id secs : Int) (t : TellerPc) :
    (stampTeller id secs t).isTerminated = t.isTerminated := by
  cases t <;> rfl

@[simp] theorem stampTeller_isServing (id secs : Int) (t : TellerPc) :
    (stampTeller id secs t).isServing = t.isServing := by
  cases t <;> rfl

theorem posted_tick (signal : Bool) (rb : BankPc) :
    (if (signal && rb == BankPc.waitOpen) = true then BankPc.woken else rb).posted
      = rb.posted := by
  cases rb <;> cases signal <;> simp [BankPc.posted]

theorem permitInv_step (ct : Int) (s s1 : Bank) (a : Action) (h : PermitInv s)
    (hs : step ct s a = some s1) : PermitInv s1 := by
  obtain ⟨h1, h2, h3, h4⟩ := h
  cases a with
  | tick =>
    simp only [step, tick] at hs
    split at hs
    · simp at hs
    · simp only [Option.some.injEq] at hs
      subst hs
      refine ⟨?_, by simpa using h2, ?_, ?_⟩
      · simp only [posted_tick, tickGen_pendingPost]
        rw [countP_map_of_eq _ _ _ tickTeller_isAcquired,
          countP_map_of_eq _ _ _ tickTeller_isTerminated]
        exact h1
      · simp only [posted_tick]
        exact h3
      · simp only [posted_tick]
        rw [countP_map_of_eq _ _ _ tickTeller_isTerminated]
        exact h4
  | genCheck r =>
    simp only [step, genCheck] at hs
    split at hs
    · next hpc =>
      rw [hpc] at h1
      split at hs
      · simp only [Option.some.injEq] at hs
        subst hs
        exact ⟨h1, h2, h3, h4⟩
      · split at hs
        · simp at hs
        · simp only [Option.some.injEq] at hs
          subst hs
          exact ⟨h1, h2, h3, h4⟩
    · simp at hs
  | genWake =>
    simp only [step, genWake] at hs
    split at hs
    · next hpc =>
      rw [hpc] at h1
      simp only [Option.some.injEq] at hs
      subst hs
      exact ⟨h1, h2, h3, h4⟩
    · simp at hs
  | genEnqueue =>
    simp only [step, genEnqueue] at hs
    split at hs
    · next hpc =>
      rw [hpc] at h1
      simp only [Option.some.injEq] at hs
      subst hs
      refine ⟨?_, h2, h3, h4⟩
      simp only [addCustomerLocked_length, GenPc.pendingPost] at h1 ⊢
      omega
    · simp at hs
  | genPost =>
    simp only [step, genPost] at hs
    split at hs
    · next hpc =>
      rw [hpc] at h1
      simp only [Option.some.injEq] at hs
      subst hs
      refine ⟨?_, h2, h3, h4⟩
      simp only [GenPc.pendingPost] at h1 ⊢
      omega
    · simp at hs
  | genStamp =>
    simp only [step, genStamp] at hs
    split at hs
    · next hpc =>
      rw [hpc] at h1
      simp only [Option.some.injEq] at hs
      subst hs
      refine ⟨?_, by simpa using h2, h3, ?_⟩
      · simp only [List.length_map, GenPc.pendingPost] at h1 ⊢
        rw [countP_map_of_eq _ _ _ (stampTeller_isAcquired _ _),
          countP_map_of_eq _ _ _ (stampTeller_isTerminated _ _)]
        exact h1
      · simp only []
        rw [countP_map_of_eq _ _ _ (stampTeller_isTerminated _ _)]
        exact h4
    · simp at hs
  | tellerTop i =>
    simp only [step, tellerTop] at hs
    split at hs
    · next heq =>
      simp only [Option.some.injEq] at hs
      subst hs
      have ha := countP_set_add TellerPc.isAcquired s.tellers i _ (TellerPc.idle s.secs) heq
      have ht := countP_set_add TellerPc.isTerminated s.tellers i _ (TellerPc.idle s.secs) heq
      simp only [TellerPc.isAcquired, TellerPc.isTerminated, if_true, if_false,
        Bool.false_eq_true] at ha ht
      refine ⟨?_, by simpa using h2, h3, ?_⟩ <;>
      · simp only [] at ha ht ⊢
        omega
    · simp at hs
  | tellerAcquire i =>
    simp only [step, tellerAcquire] at hs
    split at hs
    · next sw heq =>
      split at hs
      · next hpos =>
        simp only [Option.some.injEq] at hs
        subst hs
        have ha := countP_set_add TellerPc.isAcquired s.tellers i _
          (TellerPc.acquired sw s.secs) heq
        have ht := countP_set_add TellerPc.isTerminated s.tellers i _
          (TellerPc.acquired sw s.secs) heq
        simp only [TellerPc.isAcquired, TellerPc.isTerminated, if_true, if_false,
        Bool.false_eq_true] at ha ht
        refine ⟨?_, by simpa using h2, h3, ?_⟩ <;>
        · simp only [] at ha ht ⊢
          omega
      · simp at hs
    · simp at hs
  | tellerDequeue i r =>
    simp only [step, tellerDequeue, getNextCust] at hs
    split at hs
    · next sw ew heq =>
      cases hq : s.customers.q with
      | nil =>
        simp only [hq, dequeue, Option.some.injEq] at hs
        subst hs
        have ha := countP_set_add TellerPc.isAcquired s.tellers i _
          TellerPc.terminated heq
        have ht := countP_set_add TellerPc.isTerminated s.tellers i _
          TellerPc.terminated heq
        simp only [TellerPc.isAcquired, TellerPc.isTerminated, if_true, if_false,
        Bool.false_eq_true] at ha ht
        refine ⟨?_, by simpa using h2, h3, ?_⟩ <;>
        · simp only [hq, List.length_nil] at h1 ha ht ⊢
          omega
      | cons c rest =>
        simp only [hq, dequeue] at hs
        split at hs
        · simp at hs
        · next w hw =>
          simp only [Option.some.injEq] at hs
          subst hs
          have ha := countP_set_add TellerPc.isAcquired s.tellers i _
            (TellerPc.serving sw ew { c with endWaitTime := s.secs } w w false) heq
          have ht := countP_set_add TellerPc.isTerminated s.tellers i _
            (TellerPc.serving sw ew { c with endWaitTime := s.secs } w w false) heq
          simp only [TellerPc.isAcquired, TellerPc.isTerminated, if_true, if_false,
        Bool.false_eq_true] at ha ht
          refine ⟨?_, by simpa using h2, h3, ?_⟩ <;>
          · simp only [hq, List.length_cons] at h1 ha ht ⊢
            omega
    · simp at hs
  | tellerWake i =>
    simp only [step, tellerWake] at hs
    split at hs
    · next sw ew cur w n heq =>
      simp only [Option.some.injEq] at hs
      subst hs
      have ha := countP_set_add TellerPc.isAcquired s.tellers i _
        (TellerPc.serving sw ew cur w n false) heq
      have ht := countP_set_add TellerPc.isTerminated s.tellers i _
        (TellerPc.serving sw ew cur w n false) heq
      simp only [TellerPc.isAcquired, TellerPc.isTerminated, if_true, if_false,
        Bool.false_eq_true] at ha ht
      refine ⟨?_, by simpa using h2, h3, ?_⟩ <;>
      · simp only [] at ha ht ⊢
        omega
    · simp at hs
  | tellerFinish i =>
    simp only [step, tellerFinish] at hs
    split at hs
    · next sw ew cur w p heq =>
      simp only [Option.some.injEq] at hs
      subst hs
      have ha := countP_set_add TellerPc.isAcquired s.tellers i _ TellerPc.top heq
      have ht := countP_set_add TellerPc.isTerminated s.tellers i _ TellerPc.top heq
      simp only [TellerPc.isAcquired, TellerPc.isTerminated, if_true, if_false,
        Bool.false_eq_true] at ha ht
      refine ⟨?_, by simpa using h2, h3, ?_⟩ <;>
      · simp only [] at ha ht ⊢
        omega
    · simp at hs
  | bankClose =>
    simp only [step, bankClose] at hs
    split at hs
    · next hpc =>
      rw [hpc] at h1 h3 h4
      simp only [Option.some.injEq] at hs
      subst hs
      refine ⟨?_, h2, ?_, ?_⟩
      · simpa [BankPc.posted] using h1
      · simp [BankPc.posted]
      · simpa [BankPc.posted] using h4
    · simp at hs
  | bankPost =>
    simp only [step, bankPost] at hs
    split at hs
    · next j hpc =>
      rw [hpc] at h1 h3 h4
      simp only [BankPc.posted] at h1 h3 h4
      split at hs
      · next hlt =>
        simp only [Option.some.injEq] at hs
        subst hs
        refine ⟨?_, h2, ?_, ?_⟩ <;>
        · simp only [BankPc.posted]
          omega
      · next hge =>
        simp only [Option.some.injEq] at hs
        subst hs
        refine ⟨?_, h2, ?_, ?_⟩ <;>
        · simp only [BankPc.posted]
          omega
    · simp at hs
  | closeBank =>
    simp only [step, closeBank] at hs
    split at hs
    · simp only [Option.some.injEq] at hs
      subst hs
      exact ⟨h1, h2, h3, h4⟩
    · simp at hs

theorem run_invariant (P : Bank → Prop) (ct : Int)
    (hstep : ∀ s s1 a, P s → step ct s a = some s1 → P s1)
    (acts : List Action) (s s1 : Bank) (h : P s) (hr : run ct acts s = some s1) : P s1 := by
  induction acts generalizing s with
  | nil =>
    simp only [run, Option.some.injEq] at hr
    subst hr
    exact h
  | cons a as ih =>
    simp only [run] at hr
    split at hr
    · simp at hr
    · next s2 hs2 => exact ih s2 (hstep s s2 a h hs2) hr

theorem permitInv_reachable (ct : Int) (s : Bank) (h : Reachable ct s) : PermitInv s := by
  obtain ⟨acts, hr⟩ := h
  exact run_invariant PermitInv ct (fun s s1 a => permitInv_step ct s s1 a) acts _ _
    permitInv_openBank hr

theorem ofList_append_singleton (l : List Int) (a : Int) :
    Multiset.ofList (l ++ [a]) = Multiset.ofList l + {a} := by
  rw [← Multiset.coe_singleton, Multiset.coe_add]

theorem idBag_nil : idBag [] = 0 := rfl

theorem idBag_append (a b : List Customer) : idBag (a ++ b) = idBag a + idBag b := by
  simp [idBag]

theorem idBag_cons (c : Customer) (l : List Customer) :
    idBag (c :: l) = {c.id} + idBag l := by
  simp [idBag]

theorem idBag_singleton (c : Customer) : idBag [c] = {c.id} := by
  simp [idBag]

theorem map_id_sameNode (l : List Customer) :
    (l.map sameNode).map Customer.id = l.map Customer.id := by
  simp [sameNode]

theorem enqueue_ids (c : Customer) (q : List Customer) :
    (enqueue (some c) q).2.map Customer.id = q.map Customer.id ++ [c.id] := by
  have h := congrArg (List.map Customer.id) (enqueue_sameNode c q)
  rw [map_id_sameNode, List.map_append, map_id_sameNode] at h
  simpa [sameNode] using h

theorem setStartingDepth_ids (l : List Customer) :
    (setStartingDepth l).map Customer.id = l.map Customer.id := by
  induction l with
  | nil => rfl
  | cons c l ih =>
    cases l with
    | nil => rfl
    | cons d rest => simpa [setStartingDepth] using ih

theorem idBag_enqueue (c : Customer) (q : List Customer) :
    idBag (enqueue (some c) q).2 = idBag q + {c.id} := by
  unfold idBag
  rw [enqueue_ids, ofList_append_singleton]

theorem idBag_addCustomerLocked (c : Customer) (q : List Customer) :
    idBag (addCustomerLocked c q) = idBag q + {c.id} := by
  unfold idBag addCustomerLocked
  rw [setStartingDepth_ids, enqueue_ids, ofList_append_singleton]

theorem stampCust_id (i t : Int) (c : Customer) : (stampCust i t c).id = c.id := by
  unfold stampCust
  split <;> rfl

theorem idBag_map_stampCust (i t : Int) (l : List Customer) :
    idBag (l.map (stampCust i t)) = idBag l := by
  have h : (Customer.id ∘ stampCust i t) = Customer.id := funext (stampCust_id i t)
  simp [idBag, h]

theorem stampTeller_cur (i t : Int) (p : TellerPc) :
    (stampTeller i t p).cur = p.cur.map (stampCust i t) := by
  cases p <;> rfl

theorem filterMap_cur_tick (l : List TellerPc) :
    (l.map tickTeller).filterMap TellerPc.cur = l.filterMap TellerPc.cur := by
  induction l with
  | nil => rfl
  | cons a l ih => simp [List.filterMap_cons, ih]

theorem filterMap_cur_stamp (i t : Int) (l : List TellerPc) :
    (l.map (stampTeller i t)).filterMap TellerPc.cur
      = (l.filterMap TellerPc.cur).map (stampCust i t) := by
  induction l with
  | nil => rfl
  | cons a l ih =>
    cases a <;> simp [List.filterMap_cons, ih, stampTeller, TellerPc.cur]

theorem idBag_filterMap_set (l : List TellerPc) (i : Nat) (old new : TellerPc)
    (h : l[i]? = some old) :
    idBag ((l.set i new).filterMap TellerPc.cur) + idBag old.cur.toList
      = idBag (l.filterMap TellerPc.cur) + idBag new.cur.toList := by
  induction l generalizing i with
  | nil => simp at h
  | cons a l ih =>
    cases i with
    | zero =>
      simp only [List.getElem?_cons_zero, Option.some.injEq] at h
      subst h
      simp only [List.set_cons_zero, List.filterMap_cons]
      cases ha : a.cur <;> cases hn : new.cur <;>
        simp only [Option.toList, idBag_cons, idBag_nil] <;> abel
    | succ i =>
      simp only [List.getElem?_cons_succ] at h
      have := ih i h
      simp only [List.set_cons_succ, List.filterMap_cons]
      cases ha : a.cur
      · exact this
      · simp only [idBag_cons, add_assoc, this]

theorem idList_succ (n : Nat) :
    (Multiset.ofList (idList (n + 1)) : Multiset Int)
      = Multiset.ofList (idList n) + {(n : Int) + 1} := by
  unfold idList
  rw [List.range_succ, List.map_append, List.map_singleton, ofList_append_singleton]

theorem custBag (s : Bank) :
    idBag (allCustomers s)
      = idBag s.customers.q + idBag (s.tellers.filterMap TellerPc.cur) + idBag s.served := by
  simp only [allCustomers, inService, idBag_append]

theorem custInv_openBank : CustInv openBank := by
  refine ⟨0, by simp [openBank], ?_⟩
  rfl

theorem custInv_step (ct : Int) (s s1 : Bank) (a : Action) (h : CustInv s)
    (hs : step ct s a = some s1) : CustInv s1 := by
  obtain ⟨n, hid, hbag⟩ := h
  rw [custBag] at hbag
  cases a with
  | tick =>
    simp only [step, tick] at hs
    split at hs
    · simp at hs
    · simp only [Option.some.injEq] at hs
      subst hs
      refine ⟨n, hid, ?_⟩
      rw [custBag]
      simp only [filterMap_cur_tick, tickGen_added]
      exact hbag
  | genCheck r =>
    simp only [step, genCheck] at hs
    split at hs
    · next hpc =>
      rw [hpc] at hbag
      split at hs
      · simp only [Option.some.injEq] at hs
        subst hs
        exact ⟨n, hid, by rw [custBag]; exact hbag⟩
      · split at hs
        · simp at hs
        · simp only [Option.some.injEq] at hs
          subst hs
          exact ⟨n, hid, by rw [custBag]; exact hbag⟩
    · simp at hs
  | genWake =>
    simp only [step, genWake] at hs
    split at hs
    · next hpc =>
      rw [hpc] at hbag
      simp only [Option.some.injEq] at hs
      subst hs
      exact ⟨n, hid, by rw [custBag]; exact hbag⟩
    · simp at hs
  | genEnqueue =>
    simp only [step, genEnqueue] at hs
    split at hs
    · next hpc =>
      rw [hpc] at hbag
      simp only [Option.some.injEq] at hs
      subst hs
      refine ⟨n, hid, ?_⟩
      rw [custBag]
      simp only [idBag_addCustomerLocked, GenPc.added, add_zero] at hbag ⊢
      rw [idList_succ, ← hbag, hid]
      abel
    · simp at hs
  | genPost =>
    simp only [step, genPost] at hs
    split at hs
    · next hpc =>
      rw [hpc] at hbag
      simp only [Option.some.injEq] at hs
      subst hs
      exact ⟨n, hid, by rw [custBag]; exact hbag⟩
    · simp at hs
  | genStamp =>
    simp only [step, genStamp] at hs
    split at hs
    · next hpc =>
      rw [hpc] at hbag
      simp only [Option.some.injEq] at hs
      subst hs
      refine ⟨n + 1, by simp only [hid]; push_cast; ring, ?_⟩
      rw [custBag]
      simp only [filterMap_cur_stamp, idBag_map_stampCust, GenPc.added, add_zero] at hbag ⊢
      exact hbag
    · simp at hs
  | tellerTop i =>
    simp only [step, tellerTop] at hs
    split at hs
    · next heq =>
      simp only [Option.some.injEq] at hs
      subst hs
      have hb := idBag_filterMap_set s.tellers i _ (TellerPc.idle s.secs) heq
      simp only [TellerPc.cur, Option.toList, idBag_nil, add_zero] at hb
      refine ⟨n, hid, ?_⟩
      rw [custBag]
      simp only [hb]
      exact hbag
    · simp at hs
  | tellerAcquire i =>
    simp only [step, tellerAcquire] at hs
    split at hs
    · next sw heq =>
      split at hs
      · simp only [Option.some.injEq] at hs
        subst hs
        have hb := idBag_filterMap_set s.tellers i _ (TellerPc.acquired sw s.secs) heq
        simp only [TellerPc.cur, Option.toList, idBag_nil, add_zero] at hb
        refine ⟨n, hid, ?_⟩
        rw [custBag]
        simp only [hb]
        exact hbag
      · simp at hs
    · simp at hs
  | tellerDequeue i r =>
    simp only [step, tellerDequeue, getNextCust] at hs
    split at hs
    · next sw ew heq =>
      cases hq : s.customers.q with
      | nil =>
        simp only [hq, dequeue, Option.some.injEq] at hs
        subst hs
        have hb := idBag_filterMap_set s.tellers i _ TellerPc.terminated heq
        simp only [TellerPc.cur, Option.toList, idBag_nil, add_zero] at hb
        refine ⟨n, hid, ?_⟩
        rw [custBag]
        simp only [hb]
        rw [hq] at hbag
        exact hbag
      | cons c rest =>
        simp only [hq, dequeue] at hs
        split at hs
        · simp at hs
        · next w hw =>
          simp only [Option.some.injEq] at hs
          subst hs
          have hb := idBag_filterMap_set s.tellers i _
            (TellerPc.serving sw ew { c with endWaitTime := s.secs } w w false) heq
          simp only [TellerPc.cur, Option.toList, idBag_nil, add_zero, idBag_singleton] at hb
          refine ⟨n, hid, ?_⟩
          rw [custBag]
          simp only [hb]
          rw [hq, idBag_cons] at hbag
          rw [← hbag]
          abel
    · simp at hs
  | tellerWake i =>
    simp only [step, tellerWake] at hs
    split at hs
    · next sw ew cur w k heq =>
      simp only [Option.some.injEq] at hs
      subst hs
      have hb := idBag_filterMap_set s.tellers i _
        (TellerPc.serving sw ew cur w k false) heq
      simp only [TellerPc.cur] at hb
      have hb2 := add_right_cancel hb
      refine ⟨n, hid, ?_⟩
      rw [custBag]
      simp only [hb2]
      exact hbag
    · simp at hs
  | tellerFinish i =>
    simp only [step, tellerFinish] at hs
    split at hs
    · next sw ew cur w p heq =>
      simp only [Option.some.injEq] at hs
      subst hs
      have hb := idBag_filterMap_set s.tellers i _ TellerPc.top heq
      simp only [TellerPc.cur, Option.toList, idBag_nil, add_zero, idBag_singleton] at hb
      refine ⟨n, hid, ?_⟩
      rw [custBag]
      simp only [idBag_enqueue]
      rw [← hbag, ← hb]
      abel
    · simp at hs
  | bankClose =>
    simp only [step, bankClose] at hs
    split at hs
    · simp only [Option.some.injEq] at hs
      subst hs
      exact ⟨n, hid, by rw [custBag]; exact hbag⟩
    · simp at hs
  | bankPost =>
    simp only [step, bankPost] at hs
    split at hs
    · split at hs
      · simp only [Option.some.injEq] at hs
        subst hs
        exact ⟨n, hid, by rw [custBag]; exact hbag⟩
      · simp only [Option.some.injEq] at hs
        subst hs
        exact ⟨n, hid, by rw [custBag]; exact hbag⟩
    · simp at hs
  | closeBank =>
    simp only [step, closeBank] at hs
    split at hs
    · simp only [Option.some.injEq] at hs
      subst hs
      exact ⟨n, hid, by rw [custBag]; exact hbag⟩
    · simp at hs

theorem custInv_reachable (ct : Int) (s : Bank) (h : Reachable ct s) : CustInv s := by
  obtain ⟨acts, hr⟩ := h
  exact run_invariant CustInv ct (fun s s1 a => custInv_step ct s s1 a) acts _ _
    custInv_openBank hr

theorem randomWait_spec (minSecs maxSecs r : Nat) (h : minSecs < maxSecs)
    (hmax : maxSecs < 2 ^ 32) :
    ∃ w, randomWait minSecs maxSecs r = some w ∧ minSecs ≤ w ∧ w < maxSecs := by
  have hrange : u32 (u32 maxSecs + 2 ^ 32 - u32 minSecs) = maxSecs - minSecs := by
    simp only [u32]
    norm_num at hmax ⊢
    omega
  have hk : u32 r % (maxSecs - minSecs) < maxSecs - minSecs :=
    Nat.mod_lt _ (by omega)
  refine ⟨minSecs + u32 r % (maxSecs - minSecs), ?_, by omega, by omega⟩
  unfold randomWait
  simp only [hrange]
  rw [if_neg (by omega)]
  congr 1
  have hmin : u32 minSecs = minSecs := by
    simp only [u32]
    norm_num at hmax ⊢
    omega
  rw [hmin]
  generalize u32 r % (maxSecs - minSecs) = k at hk
  simp only [u32]
  norm_num at hmax ⊢
  omega

theorem randomWait_teller (r w : Nat) (h : randomWait 30 (60 * 6) r = some w) :
    30 ≤ w ∧ w ≤ 360 := by
  obtain ⟨w1, h1, h2, h3⟩ := randomWait_spec 30 (60 * 6) r (by norm_num) (by norm_num)
  rw [h1] at h
  simp only [Option.some.injEq] at h
  subst h
  omega

theorem toInt32_small (w : Nat) (h : w ≤ 360) : toInt32 w = (w : Int) := by
  have hu : u32 w = w := by
    simp only [u32]
    omega
  unfold toInt32
  rw [hu, if_pos (by omega)]

theorem mem_enqueue (c0 c : Customer) (q : List Customer)
    (h : c ∈ (enqueue (some c0) q).2) :
    ∃ c1, (c1 ∈ q ∨ c1 = c0) ∧ sameNode c1 = sameNode c := by
  have h1 : sameNode c ∈ (enqueue (some c0) q).2.map sameNode := List.mem_map_of_mem _ h
  rw [enqueue_sameNode] at h1
  simp only [List.mem_append, List.mem_map, List.mem_singleton] at h1
  rcases h1 with ⟨c1, hc1, he⟩ | he
  · exact ⟨c1, Or.inl hc1, he⟩
  · exact ⟨c0, Or.inr rfl, he.symm⟩

theorem sameNode_transTime (a b : Customer) (h : sameNode a = sameNode b) :
    a.transTime = b.transTime := by
  have := congrArg Customer.transTime h
  simpa [sameNode] using this

theorem stampCust_transTime (i t : Int) (c : Customer) :
    (stampCust i t c).transTime = c.transTime := by
  unfold stampCust
  split <;> rfl

theorem tickTeller_waitInRange (t : TellerPc) (h : t.waitInRange) :
    (tickTeller t).waitInRange := by
  cases t <;> exact h

theorem stampTeller_waitInRange (i k : Int) (t : TellerPc) (h : t.waitInRange) :
    (stampTeller i k t).waitInRange := by
  cases t <;> exact h

theorem waitInRange_set (l : List TellerPc) (i : Nat) (new : TellerPc)
    (hl : ∀ t ∈ l, t.waitInRange) (hn : new.waitInRange) :
    ∀ t ∈ l.set i new, t.waitInRange := by
  intro t ht
  rcases List.mem_or_eq_of_mem_set ht with h | h
  · exact hl t h
  · rw [h]
    exact hn

theorem rangeInv_openBank : RangeInv openBank := by
  refine ⟨?_, ?_⟩
  · intro t ht
    simp only [openBank, List.mem_replicate] at ht
    rw [ht.2]
    trivial
  · intro c hc
    simp [openBank] at hc

theorem rangeInv_step (ct : Int) (s s1 : Bank) (a : Action) (h : RangeInv s)
    (hs : step ct s a = some s1) : RangeInv s1 := by
  obtain ⟨h1, h2⟩ := h
  cases a with
  | tick =>
    simp only [step, tick] at hs
    split at hs
    · simp at hs
    · simp only [Option.some.injEq] at hs
      subst hs
      refine ⟨?_, h2⟩
      intro t ht
      simp only [List.mem_map] at ht
      obtain ⟨t0, ht0, rfl⟩ := ht
      exact tickTeller_waitInRange t0 (h1 t0 ht0)
  | genCheck r =>
    simp only [step, genCheck] at hs
    split at hs
    · split at hs
      · simp only [Option.some.injEq] at hs
        subst hs
        exact ⟨h1, h2⟩
      · split at hs
        · simp at hs
        · simp only [Option.some.injEq] at hs
          subst hs
          exact ⟨h1, h2⟩
    · simp at hs
  | genWake =>
    simp only [step, genWake] at hs
    split at hs
    · simp only [Option.some.injEq] at hs
      subst hs
      exact ⟨h1, h2⟩
    · simp at hs
  | genEnqueue =>
    simp only [step, genEnqueue] at hs
    split at hs
    · simp only [Option.some.injEq] at hs
      subst hs
      exact ⟨h1, h2⟩
    · simp at hs
  | genPost =>
    simp only [step, genPost] at hs
    split at hs
    · simp only [Option.some.injEq] at hs
      subst hs
      exact ⟨h1, h2⟩
    · simp at hs
  | genStamp =>
    simp only [step, genStamp] at hs
    split at hs
    · simp only [Option.some.injEq] at hs
      subst hs
      refine ⟨?_, ?_⟩
      · intro t ht
        simp only [List.mem_map] at ht
        obtain ⟨t0, ht0, rfl⟩ := ht
        exact stampTeller_waitInRange _ _ t0 (h1 t0 ht0)
      · intro c hc
        simp only [List.mem_map] at hc
        obtain ⟨c0, hc0, rfl⟩ := hc
        rw [stampCust_transTime]
        exact h2 c0 hc0
    · simp at hs
  | tellerTop i =>
    simp only [step, tellerTop] at hs
    split at hs
    · simp only [Option.some.injEq] at hs
      subst hs
      exact ⟨waitInRange_set _ _ _ h1 trivial, h2⟩
    · simp at hs
  | tellerAcquire i =>
    simp only [step, tellerAcquire] at hs
    split at hs
    · split at hs
      · simp only [Option.some.injEq] at hs
        subst hs
        exact ⟨waitInRange_set _ _ _ h1 trivial, h2⟩
      · simp at hs
    · simp at hs
  | tellerDequeue i r =>
    simp only [step, tellerDequeue, getNextCust] at hs
    split at hs
    · cases hq : s.customers.q with
      | nil =>
        simp only [hq, dequeue, Option.some.injEq] at hs
        subst hs
        exact ⟨waitInRange_set _ _ _ h1 trivial, h2⟩
      | cons c rest =>
        simp only [hq, dequeue] at hs
        split at hs
        · simp at hs
        · next w hw =>
          simp only [Option.some.injEq] at hs
          subst hs
          exact ⟨waitInRange_set _ _ _ h1 (randomWait_teller r w hw), h2⟩
    · simp at hs
  | tellerWake i =>
    simp only [step, tellerWake] at hs
    split at hs
    · next sw ew cur w k heq =>
      simp only [Option.some.injEq] at hs
      subst hs
      have hw : (TellerPc.serving sw ew cur w (k + 1) true).waitInRange :=
        h1 _ (List.getElem?_mem heq)
      exact ⟨waitInRange_set _ _ _ h1 hw, h2⟩
    · simp at hs
  | tellerFinish i =>
    simp only [step, tellerFinish] at hs
    split at hs
    · next sw ew cur w p heq =>
      simp only [Option.some.injEq] at hs
      subst hs
      have hw : (TellerPc.serving sw ew cur w 0 p).waitInRange :=
        h1 _ (List.getElem?_mem heq)
      simp only [TellerPc.waitInRange] at hw
      refine ⟨waitInRange_set _ _ _ h1 trivial, ?_⟩
      intro c hc
      obtain ⟨c1, hc1, he⟩ := mem_enqueue _ c _ hc
      rw [← sameNode_transTime c1 c he]
      rcases hc1 with hc1 | hc1
      · exact h2 c1 hc1
      · subst hc1
        simp only [toInt32_small w hw.2]
        omega
    · simp at hs
  | bankClose =>
    simp only [step, bankClose] at hs
    split at hs
    · simp only [Option.some.injEq] at hs
      subst hs
      exact ⟨h1, h2⟩
    · simp at hs
  | bankPost =>
    simp only [step, bankPost] at hs
    split at hs
    · split at hs
      · simp only [Option.some.injEq] at hs
        subst hs
        exact ⟨h1, h2⟩
      · simp only [Option.some.injEq] at hs
        subst hs
        exact ⟨h1, h2⟩
    · simp at hs
  | closeBank =>
    simp only [step, closeBank] at hs
    split at hs
    · simp only [Option.some.injEq] at hs
      subst hs
      exact ⟨h1, h2⟩
    · simp at hs

theorem rangeInv_reachable (ct : Int) (s : Bank) (h : Reachable ct s) : RangeInv s := by
  obtain ⟨acts, hr⟩ := h
  exact run_invariant RangeInv ct (fun s s1 a => rangeInv_step ct s s1 a) acts _ _
    rangeInv_openBank hr

/-! ## Claims about the queue -/

/-- C1 (FIFO law): for every sequence of `enqueue`/`dequeue` calls on an initially
empty queue (each enqueued customer a single detached node), the customers returned by the dequeues that found one are, in order,
an initial segment of the customers passed to `enqueue` (the same nodes with every
data field intact; only the `depth` bookkeeping is rewritten by `traverse`), and
the customers still queued are exactly the rest, in order. -/
theorem C1_fifo (ops : List QueueOp) :
    (runOps ops []).1.map sameNode <+: (enqueuedOf ops).map sameNode ∧
    (runOps ops []).1.map sameNode ++ (runOps ops []).2.map sameNode
      = (enqueuedOf ops).map sameNode := by
  have h := runOps_sameNode ops []
  simp only [List.map_nil, List.nil_append] at h
  exact ⟨⟨_, h⟩, h⟩

/-! ## Reachability of the concrete states -/

set_option maxRecDepth 100000 in
theorem reachable_afterServeOne : Reachable openTimeSecs afterServeOne :=
  ⟨serveOne, by decide⟩

set_option maxRecDepth 100000 in
theorem reachable_afterBusyDay : Reachable openTimeSecs afterBusyDay :=
  ⟨busyDay, by decide⟩

set_option maxRecDepth 100000 in
theorem run_untilDequeue : run openTimeSecs untilDequeue openBank = some atDequeue := by
  decide

set_option maxRecDepth 100000 in
theorem run_transaction : run openTimeSecs transaction atDequeue = some afterServeOne := by
  decide

set_option maxRecDepth 100000 in
theorem run_lateStamp : run openTimeSecs lateStamp openBank = some afterLateStamp := by
  decide

theorem setStartingDepth_append (l : List Customer) (c : Customer) :
    setStartingDepth (l ++ [c]) = l ++ [{ c with startingDepth := c.depth }] := by
  induction l with
  | nil => rfl
  | cons a l ih =>
    cases l with
    | nil => rfl
    | cons b rest =>
      have h : setStartingDepth (a :: b :: rest ++ [c])
          = a :: setStartingDepth (b :: rest ++ [c]) := rfl
      rw [h, ih]
      rfl

theorem addCustomerLocked_eq (c : Customer) (q : List Customer) :
    addCustomerLocked c q
      = (traverse q 0).chain
          ++ [{ c with depth := (q.length : Int) + 1, startingDepth := (q.length : Int) + 1 }] := by
  unfold addCustomerLocked
  rw [enqueue_some, setStartingDepth_append]

theorem filterMap_cur_nil (l : List TellerPc) (h : ∀ t ∈ l, t.isServing = false) :
    l.filterMap TellerPc.cur = [] := by
  induction l with
  | nil => rfl
  | cons a l ih =>
    have ha := h a (List.mem_cons_self a l)
    have hl := ih (fun t ht => h t (List.mem_cons_of_mem a ht))
    cases a <;> simp_all [List.filterMap_cons, TellerPc.cur, TellerPc.isServing]

theorem idBag_card (l : List Customer) : Multiset.card (idBag l) = l.length := by
  simp [idBag]

theorem idList_nodup (n : Nat) : (idList n).Nodup := by
  unfold idList
  refine List.Nodup.map ?_ (List.nodup_range n)
  intro a b h
  simpa using h

/-! ## Schedules through the whole day -/

theorem run_append (ct : Int) (as bs : List Action) (s : Bank) :
    run ct (as ++ bs) s = (run ct as s).bind (run ct bs) := by
  induction as generalizing s with
  | nil => rfl
  | cons a as ih =>
    simp only [List.cons_append, run]
    cases step ct s a with
    | none => rfl
    | some s1 => exact ih s1

theorem run_single (ct : Int) (a : Action) (s : Bank) : run ct [a] s = step ct s a := by
  simp only [run]
  cases step ct s a <;> rfl

/-- While nobody waits for the clock in an unreleased `pthread_cond_wait` and closing
time is not passed, `n` ticks only advance `secs` by `n`. -/
theorem run_ticks (ct : Int) (n : Nat) (s : Bank) (hk : s.kill = false)
    (ht : s.tellers.map tickTeller = s.tellers) (hg : tickGen s.gen.pc = s.gen.pc)
    (hb : s.runBank = BankPc.waitOpen) (hle : s.secs + n ≤ ct) :
    run ct (List.replicate n Action.tick) s = some { s with secs := s.secs + n } := by
  induction n generalizing s with
  | zero => simp [run]
  | succ n ih =>
    have hlt : ¬ (s.secs + 1 > ct) := by
      push_cast at hle
      omega
    have hstep : step ct s Action.tick = some { s with secs := s.secs + 1 } := by
      simp only [step, tick, hk, bankClockIter, ht, hg, hb]
      simp [hlt]
    have hrest := ih { s with secs := s.secs + 1 } hk ht hg hb
      (by push_cast at hle; simp only []; omega)
    simp only [List.replicate_succ, run, hstep, hrest, Option.some.injEq]
    congr 1
    push_cast
    ring

theorem run_dozing : run openTimeSecs (List.replicate 3599 Action.tick) (dozing 1)
    = some (dozing 3600) := by
  rw [run_ticks openTimeSecs 3599 (dozing 1) rfl rfl rfl rfl (by decide)]
  rfl

set_option maxRecDepth 100000 in
theorem run_dayStart : run openTimeSecs dayStart openBank = some (dozing 1) := by
  decide

set_option maxRecDepth 100000 in
theorem run_closingArrival :
    run openTimeSecs closingArrival (dozing 3600) = some beforeLatePost := by
  decide

theorem run_lateArrival : run openTimeSecs lateArrival openBank = some beforeLatePost := by
  unfold lateArrival
  rw [run_append, run_append, run_dayStart, Option.some_bind, run_dozing, Option.some_bind,
    run_closingArrival]

theorem step_latePost :
    step openTimeSecs beforeLatePost Action.genPost = some afterLatePost := by
  decide

set_option maxRecDepth 100000 in
theorem run_shutdown : run openTimeSecs shutdown afterLatePost = some closedDown := by
  decide

theorem reachable_beforeLatePost : Reachable openTimeSecs beforeLatePost :=
  ⟨lateArrival, run_lateArrival⟩

theorem reachable_closedDown : Reachable openTimeSecs closedDown := by
  refine ⟨lateArrival ++ [Action.genPost] ++ shutdown, ?_⟩
  rw [run_append, run_append, run_lateArrival, Option.some_bind, run_single, step_latePost,
    Option.some_bind, run_shutdown]

set_option maxRecDepth 100000 in
theorem reachable_beforeFirstPost : Reachable openTimeSecs beforeFirstPost :=
  ⟨firstArrival, by decide⟩

theorem step_firstPost :
    step openTimeSecs beforeFirstPost Action.genPost = some afterFirstPost := by
  decide

theorem countP_isWorking (l : List TellerPc) :
    l.countP TellerPc.isWorking + l.countP TellerPc.isTerminated
      + l.countP TellerPc.isAcquired = l.length := by
  induction l with
  | nil => rfl
  | cons t l ih =>
    simp only [List.countP_cons, List.length_cons]
    cases t <;>
      simp only [TellerPc.isWorking, TellerPc.isTerminated, TellerPc.isAcquired,
        Bool.not_true, Bool.not_false, Bool.and_self, Bool.and_false, Bool.false_and,
        if_true, if_false, Bool.false_eq_true] <;>
      omega

/-- The guard `canStep` is exactly the enabledness of some step of teller `i`. -/
theorem canStep_iff_step (ct : Int) (s : Bank) (i : Nat) (t : TellerPc)
    (h : s.tellers[i]? = some t) :
    t.canStep s.customers.semaphore = true ↔
      ∃ a, (a = Action.tellerTop i ∨ a = Action.tellerAcquire i ∨
            a = Action.tellerDequeue i 0 ∨ a = Action.tellerWake i ∨
            a = Action.tellerFinish i) ∧ (step ct s a).isSome = true := by
  constructor
  · intro hc
    cases t with
    | top => exact ⟨_, Or.inl rfl, by simp [step, tellerTop, h]⟩
    | idle sw =>
      have hpos : 0 < s.customers.semaphore := by simpa [TellerPc.canStep] using hc
      exact ⟨_, Or.inr (Or.inl rfl), by simp [step, tellerAcquire, h, hpos]⟩
    | acquired sw ew =>
      refine ⟨_, Or.inr (Or.inr (Or.inl rfl)), ?_⟩
      obtain ⟨w, hw, _⟩ := randomWait_spec 30 (60 * 6) 0 (by norm_num) (by norm_num)
      simp only [step, tellerDequeue, h, getNextCust]
      cases hq : s.customers.q with
      | nil => simp [dequeue]
      | cons c rest => simp [dequeue, hw]
    | serving sw ew cur w n p =>
      cases n with
      | zero => exact ⟨_, Or.inr (Or.inr (Or.inr (Or.inr rfl))), by simp [step, tellerFinish, h]⟩
      | succ n =>
        have hp : p = true := by simpa [TellerPc.canStep] using hc
        subst hp
        exact ⟨_, Or.inr (Or.inr (Or.inr (Or.inl rfl))), by simp [step, tellerWake, h]⟩
    | terminated => simp [TellerPc.canStep] at hc
  · rintro ⟨a, ha, hs⟩
    cases t with
    | top => rfl
    | idle sw =>
      rcases ha with rfl | rfl | rfl | rfl | rfl <;>
        simp [step, tellerTop, tellerAcquire, tellerDequeue, tellerWake, tellerFinish, h]
          at hs
      simpa [TellerPc.canStep] using hs
    | acquired sw ew => rfl
    | serving sw ew cur w n p =>
      cases n with
      | zero => rfl
      | succ n =>
        rcases ha with rfl | rfl | rfl | rfl | rfl <;>
          simp [step, tellerTop, tellerAcquire, tellerDequeue, tellerWake, tellerFinish, h]
            at hs
        cases p with
        | true => rfl
        | false => simp [step, tellerWake, h] at hs
    | terminated =>
      rcases ha with rfl | rfl | rfl | rfl | rfl <;>
        simp [step, tellerTop, tellerAcquire, tellerDequeue, tellerWake, tellerFinish, h]
          at hs

/-! ## Claims -/

/-- Conservation under uninterrupted appends: in every state the thread model
reaches, in which each `tellerFinish` runs lines 165-168 without another teller's
append in between, if no teller is in the middle of a transaction then the number
of customers in the served list plus the number still in the customer queue equals
the number of customers generated. -/
theorem conservation_atomic_append (ct : Int) (s : Bank) (hr : Reachable ct s)
    (hidle : ∀ t ∈ s.tellers, t.isServing = false) :
    (s.served.length : Int) + (s.customers.q.length : Int) = generated s.gen := by
  obtain ⟨n, hid, hbag⟩ := custInv_reachable ct s hr
  have hcard := congrArg Multiset.card hbag
  rw [idBag_card] at hcard
  simp only [allCustomers, inService, filterMap_cur_nil s.tellers hidle, List.append_nil,
    List.length_append, Multiset.coe_card, idList, List.length_map, List.length_range]
    at hcard
  unfold generated
  rw [hid]
  omega

/-- Run without interruption, the two halves of the append are `enqueue` itself:
line 113 followed by lines 114-121. -/
theorem enqueuePtr_split (fuel : Nat) (h : Heap) (cust : Nat) (queue : Option Nat) :
    enqueuePtr fuel h (some cust) queue
      = (findTailPtr fuel h queue).map (fun r => enqueueLinkPtr r.1 cust r.2.1 queue) := by
  unfold enqueuePtr
  cases findTailPtr fuel h queue with
  | none => rfl
  | some r =>
    obtain ⟨h1, tail, d⟩ := r
    rfl

/-- C3, as stated, fails: the generator is inside its arrival delay when the clock
passes `openTimeSecs`; `runBank` posts its `TELLER_NUM = 3` permits on the empty
queue; the generator then completes `addCustomer` for customer 1, after which the
semaphore holds 4 permits while the queue holds 1 customer. -/
theorem C3_counterexample :
    ∃ s s1, Reachable openTimeSecs s ∧ step openTimeSecs s Action.genPost = some s1 ∧
      s1.customers.semaphore = 4 ∧ s1.customers.q.length = 1 ∧
      s1.customers.semaphore ≠ s1.customers.q.length :=
  ⟨beforeLatePost, afterLatePost, reachable_beforeLatePost, step_latePost,
    by decide, by decide, by decide⟩

/-- C3 (amended): immediately after an `addCustomer` completes (its `sem_post` is
done), the semaphore count plus the tellers holding a permit they have not yet used
plus the tellers that terminated equals the number of queued customers plus the
permits posted so far by the closing loop of `runBank`; so the semaphore count
equals the queue length whenever the closing loop has posted nothing yet and no
teller holds an unused permit. -/
theorem C3_semaphore_after_addCustomer (ct : Int) (s s1 : Bank) (hr : Reachable ct s)
    (hs : step ct s Action.genPost = some s1) :
    s1.customers.semaphore + s1.tellers.countP TellerPc.isAcquired
        + s1.tellers.countP TellerPc.isTerminated
      = s1.customers.q.length + s1.runBank.posted ∧
    (s1.runBank.posted = 0 → s1.tellers.countP TellerPc.isAcquired = 0 →
      s1.customers.semaphore = s1.customers.q.length) := by
  obtain ⟨h1, _, _, h4⟩ := permitInv_step ct s s1 _ (permitInv_reachable ct s hr) hs
  have hpc : s1.gen.pc.pendingPost = 0 := by
    simp only [step, genPost] at hs
    split at hs
    · simp only [Option.some.injEq] at hs
      subst hs
      rfl
    · simp at hs
  rw [hpc] at h1
  refine ⟨by omega, ?_⟩
  intro hp ha
  omega

/-- Witness for C3 (amended): the first `addCustomer` of the day, before closing: one
permit, one queued customer; and the `addCustomer` after closing: four permits
against one queued customer and three posted permits. -/
theorem C3_semaphore_after_addCustomer_witness :
    (afterFirstPost.customers.semaphore + afterFirstPost.tellers.countP TellerPc.isAcquired
        + afterFirstPost.tellers.countP TellerPc.isTerminated
      = afterFirstPost.customers.q.length + afterFirstPost.runBank.posted ∧
     (afterFirstPost.runBank.posted = 0 →
      afterFirstPost.tellers.countP TellerPc.isAcquired = 0 →
      afterFirstPost.customers.semaphore = afterFirstPost.customers.q.length)) ∧
    afterFirstPost.customers.semaphore = 1 ∧ afterFirstPost.customers.q.length = 1 :=
  ⟨C3_semaphore_after_addCustomer openTimeSecs beforeFirstPost afterFirstPost
    reachable_beforeFirstPost step_firstPost, by decide, by decide⟩

/-- C4 (empty served list): on an empty served list `stats` reports a served count
of 0, but each of the three averages is a division by `numServed = 0`, which has no
defined value. -/
theorem C4_stats_empty :
    stats [] =
      { numServed := 0, maxDepth := 0, maxTransTime := 0, avgTransTime := none,
        maxTelWait := 0, avgTelWait := none, maxCustWait := 0, avgCustWait := none } := by
  decide

/-- C5 (shutdown drain): in a reachable state in which the closing loop has posted
its `TELLER_NUM` permits and the generator has stopped, (1) if no teller step is
enabled and no teller is serving, then every teller is terminated; (2) the semaphore
count minus the queue length equals the number of tellers that are neither
terminated nor holding an unconsumed permit; (3) there are `TELLER_NUM` tellers. -/
theorem C5_shutdown_drain (ct : Int) (s : Bank) (hr : Reachable ct s)
    (hb : s.runBank.posted = TELLER_NUM) (hg : s.gen.pc = GenPc.done) :
    ((∀ t ∈ s.tellers, t.canStep s.customers.semaphore = false ∧ t.isServing = false) →
      ∀ t ∈ s.tellers, t = TellerPc.terminated) ∧
    (s.customers.semaphore : Int) - (s.customers.q.length : Int)
      = (s.tellers.countP TellerPc.isWorking : Int) ∧
    s.tellers.length = TELLER_NUM := by
  obtain ⟨h1, h2, _, _⟩ := permitInv_reachable ct s hr
  have hw := countP_isWorking s.tellers
  rw [hg, hb] at h1
  simp only [GenPc.pendingPost] at h1
  refine ⟨?_, by omega, h2⟩
  intro hq
  have hacq : s.tellers.countP TellerPc.isAcquired = 0 := by
    rw [List.countP_eq_zero]
    intro t ht
    have := (hq t ht).1
    cases t <;> simp_all [TellerPc.canStep, TellerPc.isAcquired]
  intro t ht
  obtain ⟨hc, hsv⟩ := hq t ht
  cases t with
  | top => simp [TellerPc.canStep] at hc
  | idle sw =>
    have hsem : s.customers.semaphore = 0 := by simpa [TellerPc.canStep] using hc
    have hall : s.tellers.countP TellerPc.isTerminated = s.tellers.length := by omega
    have := (List.countP_eq_length.mp hall) _ ht
    simp [TellerPc.isTerminated] at this
  | acquired sw ew => simp [TellerPc.canStep] at hc
  | serving sw ew cur w n p => simp [TellerPc.isServing] at hsv
  | terminated => rfl

/-- Witness for C5: at the end of the day `closedDown` the closing loop has posted
three permits, the generator has stopped, no teller can step, and all three tellers
are terminated with an empty semaphore and an empty queue. -/
theorem C5_shutdown_drain_witness :
    (∀ t ∈ closedDown.tellers, t = TellerPc.terminated) ∧
    (closedDown.customers.semaphore : Int) - (closedDown.customers.q.length : Int)
      = (closedDown.tellers.countP TellerPc.isWorking : Int) ∧
    closedDown.tellers.length = TELLER_NUM :=
  ⟨(C5_shutdown_drain openTimeSecs closedDown reachable_closedDown (by decide)
      (by decide)).1 (by decide),
    (C5_shutdown_drain openTimeSecs closedDown reachable_closedDown (by decide)
      (by decide)).2⟩

/-- C6 (starting depth): for a queue of `n` customers and any customer, after
`addCustomer` the new customer is the last element of the queue, its `startingDepth`
(and `depth`) is `n + 1`, which is also the value `enqueue` returns, the queue holds
`n + 1` customers and the semaphore has been posted once. -/
theorem C6_startingDepth (q : List Customer) (c : Customer) (sem : Nat) :
    (addCustomer (some c) { q := q, semaphore := sem }).q.getLast?
        = some { c with depth := (q.length : Int) + 1,
                        startingDepth := (q.length : Int) + 1 } ∧
    (enqueue (some c) q).1 = (q.length : Int) + 1 ∧
    (addCustomer (some c) { q := q, semaphore := sem }).q.length = q.length + 1 ∧
    (addCustomer (some c) { q := q, semaphore := sem }).q.dropLast.map sameNode
        = q.map sameNode ∧
    (addCustomer (some c) { q := q, semaphore := sem }).semaphore = sem + 1 := by
  simp only [addCustomer, addCustomerLocked_eq, enqueue_some]
  refine ⟨by simp, trivial, by simp [traverse_length], ?_, trivial⟩
  rw [List.dropLast_concat, traverse_chain_sameNode]

/-- C7 (end of wait): teller 0 dequeues customer 1 at clock 60 (line 161 stores
`endWaitTime = 60`); its transaction takes 30 ticks; line 165 then stores the clock
again, so the served customer carries `endWaitTime = 90`, and the customer wait
time computed by `stats` is 30, the whole transaction, although the customer did
not queue at all. -/
theorem C7_endWaitTime_overwritten :
    run openTimeSecs untilDequeue openBank = some atDequeue ∧
    atDequeue.secs = 60 ∧
    (atDequeue.tellers.filterMap TellerPc.cur).map Customer.endWaitTime = [60] ∧
    run openTimeSecs transaction atDequeue = some afterServeOne ∧
    afterServeOne.served.map Customer.endWaitTime = [90] ∧
    afterServeOne.served.map Customer.startWaitTime = [60] ∧
    afterServeOne.served.map Customer.transTime = [30] ∧
    (stats afterServeOne.served).maxCustWait = 30 := by
  refine ⟨run_untilDequeue, by decide, by decide, run_transaction, by decide, by decide,
    by decide, by decide⟩

/-- C8 (random waits): for `minSecs < maxSecs` (both `unsigned int`) and every value
`r` of `rand_r`, `randomWait` computes a wait time without a modulo by zero, and
`minSecs ≤ waitTime ≤ maxSecs`; and in every reachable state every served
customer's `transTime` lies in `[30, 360]` and is strictly positive. -/
theorem C8_randomWait_range (minSecs maxSecs r : Nat) (h : minSecs < maxSecs)
    (hmax : maxSecs < 2 ^ 32) (ct : Int) (s : Bank) (hr : Reachable ct s) :
    (∃ w, randomWait minSecs maxSecs r = some w ∧ minSecs ≤ w ∧ w ≤ maxSecs) ∧
    (∀ c ∈ s.served, 30 ≤ c.transTime ∧ c.transTime ≤ 360 ∧ 0 < c.transTime) := by
  refine ⟨?_, ?_⟩
  · obtain ⟨w, hw, h1, h2⟩ := randomWait_spec minSecs maxSecs r h hmax
    exact ⟨w, hw, h1, by omega⟩
  · intro c hc
    have := (rangeInv_reachable ct s hr).2 c hc
    omega

/-- Witness for C8: the teller bounds 30 and 360 with `rand_r = 12345`, and the state
in which the first customer has been served. -/
theorem C8_randomWait_range_witness :
    (30 < 360 ∧ 360 < 2 ^ 32) ∧
    ((∃ w, randomWait 30 360 12345 = some w ∧ 30 ≤ w ∧ w ≤ 360) ∧
     (∀ c ∈ afterServeOne.served, 30 ≤ c.transTime ∧ c.transTime ≤ 360 ∧ 0 < c.transTime)) :=
  ⟨by decide,
    C8_randomWait_range 30 360 12345 (by decide) (by decide) openTimeSecs afterServeOne
      reachable_afterServeOne⟩

/-- C9 (customer wait time): under the schedule `lateStamp` the generator stores
`startWaitTime` (line 190) only at clock 91, after teller 0 has served the customer
at clock 90, so the served list holds a customer with `endWaitTime = 90` and
`startWaitTime = 91`. -/
theorem C9_startWaitTime_after_end :
    run openTimeSecs lateStamp openBank = some afterLateStamp ∧
    ∃ c ∈ afterLateStamp.served, c.endWaitTime = 90 ∧ c.startWaitTime = 91 ∧
      c.endWaitTime < c.startWaitTime := by
  refine ⟨run_lateStamp, ?_⟩
  decide

/-- C10 (no customer twice): in every reachable state the customer ids in the
customer queue, in the tellers' hands and in the served list are pairwise distinct;
so no id occurs twice in the served list and no customer of the queue has the id of
a served customer. -/
theorem C10_ids_distinct (ct : Int) (s : Bank) (hr : Reachable ct s) :
    ((s.customers.q ++ inService s ++ s.served).map Customer.id).Nodup ∧
    (s.served.map Customer.id).Nodup ∧
    (∀ c ∈ s.customers.q, ∀ d ∈ s.served, c.id ≠ d.id) := by
  obtain ⟨n, _, hbag⟩ := custInv_reachable ct s hr
  have hnd : ((allCustomers s).map Customer.id).Nodup := by
    have h1 : (idBag (allCustomers s)).Nodup := by
      rw [hbag]
      exact Multiset.coe_nodup.mpr (idList_nodup _)
    exact Multiset.coe_nodup.mp h1
  refine ⟨hnd, ?_, ?_⟩
  · simp only [allCustomers, List.map_append] at hnd
    exact (List.nodup_append.mp hnd).2.1
  · intro c hc d hd heq
    simp only [allCustomers, List.map_append, List.append_assoc] at hnd
    have hdis := (List.nodup_append.mp hnd).2.2
    exact hdis (List.mem_map_of_mem _ hc)
      (List.mem_append_right _ (heq ▸ List.mem_map_of_mem _ hd))

/-- Witness for C10: the state with customer 1 served, customer 2 with teller 1 and
customer 3 queued. -/
theorem C10_ids_distinct_witness :
    ((afterBusyDay.customers.q ++ inService afterBusyDay ++ afterBusyDay.served).map
        Customer.id) = [3, 2, 1] ∧
    (((afterBusyDay.customers.q ++ inService afterBusyDay ++ afterBusyDay.served).map
        Customer.id).Nodup ∧
     (afterBusyDay.served.map Customer.id).Nodup ∧
     (∀ c ∈ afterBusyDay.customers.q, ∀ d ∈ afterBusyDay.served, c.id ≠ d.id)) :=
  ⟨by decide, C10_ids_distinct openTimeSecs afterBusyDay reachable_afterBusyDay⟩

/-! ## Clock loop lemmas -/

theorem bankClockLoop_secs (ct : Int) (n : Nat) (secs : Int) :
    (bankClockLoop ct n secs).1 = secs + n := by
  induction n generalizing secs with
  | zero => simp [bankClockLoop]
  | succ n ih =>
    simp only [bankClockLoop, ih, bankClockIter]
    push_cast
    ring

theorem bankClockLoop_quiet (ct : Int) (n : Nat) (secs : Int) (h : secs + n ≤ ct) :
    (bankClockLoop ct n secs).2 = List.replicate n false := by
  induction n generalizing secs with
  | zero => simp [bankClockLoop]
  | succ n ih =>
    have h1 : ¬ (secs + 1 > ct) := by
      push_cast at h
      omega
    have h2 := ih (secs + 1) (by push_cast at h; omega)
    simp only [bankClockLoop, bankClockIter, h2, List.replicate_succ, h1, decide_False]

theorem bankClockLoop_append (ct : Int) (m n : Nat) (secs : Int) :
    (bankClockLoop ct (m + n) secs).2
      = (bankClockLoop ct m secs).2 ++ (bankClockLoop ct n (secs + m)).2 := by
  induction m generalizing secs with
  | zero => simp [bankClockLoop]
  | succ m ih =>
    have h := ih (secs + 1)
    have e : m + 1 + n = (m + n) + 1 := by omega
    rw [e]
    simp only [bankClockLoop, bankClockIter, h, List.cons_append]
    have e2 : secs + 1 + (m : Int) = secs + ((m + 1 : Nat) : Int) := by
      push_cast
      ring
    rw [e2]

/-! ## Pointer-level lemmas -/

theorem chain_unique (h : Heap) (p : Option Nat) (xs ys : List Nat)
    (hx : Chain h p xs) (hy : Chain h p ys) : xs = ys := by
  induction xs generalizing p ys with
  | nil =>
    cases ys with
    | nil => rfl
    | cons b bs =>
      simp only [Chain] at hx hy
      rw [hx] at hy
      simp at hy
  | cons a as ih =>
    cases ys with
    | nil =>
      simp only [Chain] at hx hy
      rw [hy] at hx
      simp at hx
    | cons b bs =>
      simp only [Chain] at hx hy
      have hab : a = b := by
        have := hx.1.symm.trans hy.1
        simpa using this
      subst hab
      rw [ih _ bs hx.2 hy.2]

theorem chain_suffix (h : Heap) (p : Option Nat) (l1 : List Nat) (a : Nat) (l2 : List Nat)
    (hc : Chain h p (l1 ++ a :: l2)) : Chain h (some a) (a :: l2) := by
  induction l1 generalizing p with
  | nil =>
    simp only [List.nil_append, Chain] at hc
    exact ⟨rfl, hc.2⟩
  | cons b l1 ih =>
    simp only [List.cons_append, Chain] at hc
    exact ih _ hc.2

theorem chain_head_not_mem (h : Heap) (a : Nat) (as : List Nat)
    (hc : Chain h (some a) (a :: as)) : a ∉ as := by
  intro hmem
  obtain ⟨l1, l2, hsplit⟩ := List.append_of_mem hmem
  have h2 : Chain h (some a) (a :: l2) := by
    have hc2 := hc.2
    rw [hsplit] at hc2
    exact chain_suffix h _ l1 a l2 hc2
  have heq := chain_unique h _ _ _ hc h2
  have hlen := congrArg List.length heq
  rw [hsplit] at hlen
  simp only [List.length_cons, List.length_append] at hlen
  omega

theorem chain_congr (h h1 : Heap) (p : Option Nat) (as : List Nat)
    (hn : ∀ x ∈ as, (h1 x).next = (h x).next) (hc : Chain h p as) : Chain h1 p as := by
  induction as generalizing p with
  | nil => exact hc
  | cons a as ih =>
    simp only [Chain] at hc ⊢
    refine ⟨hc.1, ?_⟩
    rw [hn a (List.mem_cons_self a as)]
    exact ih _ (fun x hx => hn x (List.mem_cons_of_mem a hx)) hc.2

theorem customersAt_congr (h h1 : Heap) (as : List Nat)
    (hn : ∀ x ∈ as, (h1 x).cust = (h x).cust) : customersAt h1 as = customersAt h as := by
  unfold customersAt
  exact List.map_congr_left hn

/-! ## Enqueue position lemmas -/

theorem traverse_getElem (q : List Customer) (d : Int) (i : Nat) (x : Customer)
    (h : q[i]? = some x) :
    (traverse q d).chain[i]? = some { x with depth := d + (i : Int) + 1 } := by
  induction q generalizing d i with
  | nil => simp at h
  | cons c rest ih =>
    cases rest with
    | nil =>
      cases i with
      | zero =>
        simp only [List.getElem?_cons_zero, Option.some.injEq] at h
        subst h
        simp [traverse]
      | succ i => simp at h
    | cons c2 rest2 =>
      cases i with
      | zero =>
        simp only [List.getElem?_cons_zero, Option.some.injEq] at h
        subst h
        simp [traverse]
      | succ i =>
        simp only [List.getElem?_cons_succ] at h
        have h2 := ih (d + 1) i h
        simp only [traverse, List.getElem?_cons_succ] at h2 ⊢
        rw [h2]
        simp only [Option.some.injEq]
        congr 1
        push_cast
        ring

theorem enqueue_getElem (c : Customer) (q : List Customer) (i : Nat) (x : Customer)
    (h : (q ++ [c])[i]? = some x) :
    (enqueue (some c) q).2[i]? = some { x with depth := (i : Int) + 1 } := by
  rw [enqueue_some]
  by_cases hi : i < q.length
  · rw [List.getElem?_append_left hi] at h
    rw [List.getElem?_append_left (by rw [traverse_length]; exact hi)]
    have := traverse_getElem q 0 i x h
    simpa using this
  · have hge : q.length ≤ i := Nat.le_of_not_lt hi
    rw [List.getElem?_append_right hge] at h
    rw [List.getElem?_append_right (by rw [traverse_length]; exact hge), traverse_length]
    cases hk : i - q.length with
    | zero =>
      rw [hk] at h
      simp only [List.getElem?_cons_zero, Option.some.injEq] at h ⊢
      subst h
      have : (i : Int) = q.length := by omega
      rw [this]
    | succ k =>
      rw [hk] at h
      simp at h

/-! ## Starting depths in reachable states -/

theorem sameNode_startingDepth (a b : Customer) (h : sameNode a = sameNode b) :
    a.startingDepth = b.startingDepth := by
  have := congrArg Customer.startingDepth h
  simpa [sameNode] using this

theorem stampCust_startingDepth (i t : Int) (c : Customer) :
    (stampCust i t c).startingDepth = c.startingDepth := by
  unfold stampCust
  split <;> rfl

theorem mem_traverse_chain (q : List Customer) (d : Int) (c : Customer)
    (h : c ∈ (traverse q d).chain) : ∃ c1 ∈ q, sameNode c1 = sameNode c := by
  have h1 : sameNode c ∈ (traverse q d).chain.map sameNode := List.mem_map_of_mem _ h
  rw [traverse_chain_sameNode] at h1
  simpa only [List.mem_map] using h1

theorem cur_depth_set (l : List TellerPc) (i : Nat) (new : TellerPc)
    (hl : ∀ t ∈ l, ∀ c, t.cur = some c → 1 ≤ c.startingDepth)
    (hn : ∀ c, new.cur = some c → 1 ≤ c.startingDepth) :
    ∀ t ∈ l.set i new, ∀ c, t.cur = some c → 1 ≤ c.startingDepth := by
  intro t ht
  rcases List.mem_or_eq_of_mem_set ht with h | h
  · exact hl t h
  · rw [h]
    exact hn

theorem depthInv_openBank : DepthInv openBank := by
  refine ⟨?_, ?_, ?_⟩
  · intro c hc
    simp [openBank] at hc
  · intro t ht c hc
    simp only [openBank, List.mem_replicate] at ht
    rw [ht.2] at hc
    simp [TellerPc.cur] at hc
  · intro c hc
    simp [openBank] at hc

theorem depthInv_step (ct : Int) (s s1 : Bank) (a : Action) (h : DepthInv s)
    (hs : step ct s a = some s1) : DepthInv s1 := by
  obtain ⟨h1, h2, h3⟩ := h
  cases a with
  | tick =>
    simp only [step, tick] at hs
    split at hs
    · simp at hs
    · simp only [Option.some.injEq] at hs
      subst hs
      refine ⟨h1, ?_, h3⟩
      intro t ht c hc
      simp only [List.mem_map] at ht
      obtain ⟨t0, ht0, rfl⟩ := ht
      rw [tickTeller_cur] at hc
      exact h2 t0 ht0 c hc
  | genCheck r =>
    simp only [step, genCheck] at hs
    split at hs
    · split at hs
      · simp only [Option.some.injEq] at hs
        subst hs
        exact ⟨h1, h2, h3⟩
      · split at hs
        · simp at hs
        · simp only [Option.some.injEq] at hs
          subst hs
          exact ⟨h1, h2, h3⟩
    · simp at hs
  | genWake =>
    simp only [step, genWake] at hs
    split at hs
    · simp only [Option.some.injEq] at hs
      subst hs
      exact ⟨h1, h2, h3⟩
    · simp at hs
  | genEnqueue =>
    simp only [step, genEnqueue] at hs
    split at hs
    · simp only [Option.some.injEq] at hs
      subst hs
      refine ⟨?_, h2, h3⟩
      intro c hc
      simp only [addCustomerLocked_eq, List.mem_append, List.mem_singleton] at hc
      rcases hc with hc | hc
      · obtain ⟨c1, hc1, he⟩ := mem_traverse_chain _ _ c hc
        rw [← sameNode_startingDepth c1 c he]
        exact h1 c1 hc1
      · subst hc
        simp only []
        omega
    · simp at hs
  | genPost =>
    simp only [step, genPost] at hs
    split at hs
    · simp only [Option.some.injEq] at hs
      subst hs
      exact ⟨h1, h2, h3⟩
    · simp at hs
  | genStamp =>
    simp only [step, genStamp] at hs
    split at hs
    · simp only [Option.some.injEq] at hs
      subst hs
      refine ⟨?_, ?_, ?_⟩
      · intro c hc
        simp only [List.mem_map] at hc
        obtain ⟨c0, hc0, rfl⟩ := hc
        rw [stampCust_startingDepth]
        exact h1 c0 hc0
      · intro t ht c hc
        simp only [List.mem_map] at ht
        obtain ⟨t0, ht0, rfl⟩ := ht
        rw [stampTeller_cur] at hc
        cases h0 : t0.cur with
        | none => simp [h0] at hc
        | some c0 =>
          simp only [h0, Option.map_some', Option.some.injEq] at hc
          subst hc
          rw [stampCust_startingDepth]
          exact h2 t0 ht0 c0 h0
      · intro c hc
        simp only [List.mem_map] at hc
        obtain ⟨c0, hc0, rfl⟩ := hc
        rw [stampCust_startingDepth]
        exact h3 c0 hc0
    · simp at hs
  | tellerTop i =>
    simp only [step, tellerTop] at hs
    split at hs
    · simp only [Option.some.injEq] at hs
      subst hs
      exact ⟨h1, cur_depth_set _ _ _ h2 (fun c hc => by simp [TellerPc.cur] at hc), h3⟩
    · simp at hs
  | tellerAcquire i =>
    simp only [step, tellerAcquire] at hs
    split at hs
    · split at hs
      · simp only [Option.some.injEq] at hs
        subst hs
        exact ⟨h1, cur_depth_set _ _ _ h2 (fun c hc => by simp [TellerPc.cur] at hc), h3⟩
      · simp at hs
    · simp at hs
  | tellerDequeue i r =>
    simp only [step, tellerDequeue, getNextCust] at hs
    split at hs
    · cases hq : s.customers.q with
      | nil =>
        simp only [hq, dequeue, Option.some.injEq] at hs
        subst hs
        refine ⟨?_, cur_depth_set _ _ _ h2 (fun c hc => by simp [TellerPc.cur] at hc), h3⟩
        intro c hc
        simp at hc
      | cons c0 rest =>
        simp only [hq, dequeue] at hs
        rw [hq] at h1
        split at hs
        · simp at hs
        · simp only [Option.some.injEq] at hs
          subst hs
          refine ⟨fun c hc => h1 c (List.mem_cons_of_mem _ hc),
            cur_depth_set _ _ _ h2 ?_, h3⟩
          intro c hc
          simp only [TellerPc.cur, Option.some.injEq] at hc
          subst hc
          exact h1 c0 (List.mem_cons_self _ _)
    · simp at hs
  | tellerWake i =>
    simp only [step, tellerWake] at hs
    split at hs
    · next sw ew cur w k heq =>
      simp only [Option.some.injEq] at hs
      subst hs
      refine ⟨h1, cur_depth_set _ _ _ h2 ?_, h3⟩
      intro c hc
      exact h2 _ (List.getElem?_mem heq) c hc
    · simp at hs
  | tellerFinish i =>
    simp only [step, tellerFinish] at hs
    split at hs
    · next sw ew cur w p heq =>
      simp only [Option.some.injEq] at hs
      subst hs
      have hcur : 1 ≤ cur.startingDepth := h2 _ (List.getElem?_mem heq) cur rfl
      refine ⟨h1, cur_depth_set _ _ _ h2 (fun c hc => by simp [TellerPc.cur] at hc), ?_⟩
      intro c hc
      obtain ⟨c1, hc1, he⟩ := mem_enqueue _ c _ hc
      rw [← sameNode_startingDepth c1 c he]
      rcases hc1 with hc1 | hc1
      · exact h3 c1 hc1
      · subst hc1
        exact hcur
    · simp at hs
  | bankClose =>
    simp only [step, bankClose] at hs
    split at hs
    · simp only [Option.some.injEq] at hs
      subst hs
      exact ⟨h1, h2, h3⟩
    · simp at hs
  | bankPost =>
    simp only [step, bankPost] at hs
    split at hs
    · split at hs
      · simp only [Option.some.injEq] at hs
        subst hs
        exact ⟨h1, h2, h3⟩
      · simp only [Option.some.injEq] at hs
        subst hs
        exact ⟨h1, h2, h3⟩
    · simp at hs
  | closeBank =>
    simp only [step, closeBank] at hs
    split at hs
    · simp only [Option.some.injEq] at hs
      subst hs
      exact ⟨h1, h2, h3⟩
    · simp at hs

theorem depthInv_reachable (ct : Int) (s : Bank) (h : Reachable ct s) : DepthInv s := by
  obtain ⟨acts, hr⟩ := h
  exact run_invariant DepthInv ct (fun s s1 a => depthInv_step ct s s1 a) acts _ _
    depthInv_openBank hr

/-! ## Statistics lemmas -/

theorem statsLoop_eq_foldl (l : List Customer) (a : Totals) :
    statsLoop l a = l.foldl (fun a c => statsVisit c a) a := by
  induction l generalizing a with
  | nil => rfl
  | cons c rest ih =>
    cases rest with
    | nil => rfl
    | cons c2 rest2 =>
      have h := ih (statsVisit c a)
      simp only [statsLoop, List.foldl_cons] at h ⊢
      exact h

theorem fold_numServed (l : List Customer) (a : Totals) :
    (l.foldl (fun a c => statsVisit c a) a).numServed = a.numServed + l.length := by
  induction l generalizing a with
  | nil => simp
  | cons c rest ih =>
    rw [List.foldl_cons, ih (statsVisit c a)]
    simp only [List.length_cons, statsVisit]
    push_cast
    ring

theorem fold_totalTransTime (l : List Customer) (a : Totals) :
    (l.foldl (fun a c => statsVisit c a) a).totalTransTime
      = a.totalTransTime + (l.map Customer.transTime).sum := by
  induction l generalizing a with
  | nil => simp
  | cons c rest ih =>
    rw [List.foldl_cons, ih (statsVisit c a)]
    simp only [List.map_cons, List.sum_cons, statsVisit]
    ring

theorem fold_totalTelWait (l : List Customer) (a : Totals) :
    (l.foldl (fun a c => statsVisit c a) a).totalTelWait
      = a.totalTelWait + (l.map Customer.tellWaitTime).sum := by
  induction l generalizing a with
  | nil => simp
  | cons c rest ih =>
    rw [List.foldl_cons, ih (statsVisit c a)]
    simp only [List.map_cons, List.sum_cons, statsVisit]
    ring

theorem fold_totalCustWait (l : List Customer) (a : Totals) :
    (l.foldl (fun a c => statsVisit c a) a).totalCustWait
      = a.totalCustWait + (l.map (fun c => c.endWaitTime - c.startWaitTime)).sum := by
  induction l generalizing a with
  | nil => simp
  | cons c rest ih =>
    rw [List.foldl_cons, ih (statsVisit c a)]
    simp only [List.map_cons, List.sum_cons, statsVisit]
    ring

theorem fold_maxDepth (l : List Customer) (a : Totals) :
    (l.foldl (fun a c => statsVisit c a) a).maxDepth
      = (l.map Customer.startingDepth).foldl max a.maxDepth := by
  induction l generalizing a with
  | nil => simp
  | cons c rest ih =>
    rw [List.foldl_cons, ih (statsVisit c a)]
    simp only [List.map_cons, List.foldl_cons, statsVisit]
    congr 1
    split <;> omega

theorem fold_maxTransTime (l : List Customer) (a : Totals) :
    (l.foldl (fun a c => statsVisit c a) a).maxTransTime
      = (l.map Customer.transTime).foldl max a.maxTransTime := by
  induction l generalizing a with
  | nil => simp
  | cons c rest ih =>
    rw [List.foldl_cons, ih (statsVisit c a)]
    simp only [List.map_cons, List.foldl_cons, statsVisit]
    congr 1
    split <;> omega

theorem fold_maxTelWait (l : List Customer) (a : Totals) :
    (l.foldl (fun a c => statsVisit c a) a).maxTelWait
      = (l.map Customer.tellWaitTime).foldl max a.maxTelWait := by
  induction l generalizing a with
  | nil => simp
  | cons c rest ih =>
    rw [List.foldl_cons, ih (statsVisit c a)]
    simp only [List.map_cons, List.foldl_cons, statsVisit]
    congr 1
    split <;> omega

theorem fold_maxCustWait (l : List Customer) (a : Totals) :
    (l.foldl (fun a c => statsVisit c a) a).maxCustWait
      = (l.map (fun c => c.endWaitTime - c.startWaitTime)).foldl max a.maxCustWait := by
  induction l generalizing a with
  | nil => simp
  | cons c rest ih =>
    rw [List.foldl_cons, ih (statsVisit c a)]
    simp only [List.map_cons, List.foldl_cons, statsVisit]
    congr 1
    split <;> omega

theorem le_greatest (xs : List Int) (x : Int) (h : x ∈ xs) : x ≤ greatest xs := by
  induction xs with
  | nil => simp at h
  | cons a rest ih =>
    cases rest with
    | nil =>
      simp only [List.mem_singleton] at h
      subst h
      simp [greatest]
    | cons b rest2 =>
      simp only [greatest]
      rcases List.mem_cons.mp h with h1 | h1
      · subst h1
        exact le_max_left _ _
      · exact le_trans (ih h1) (le_max_right _ _)

theorem greatest_mem (xs : List Int) (h : xs ≠ []) : greatest xs ∈ xs := by
  induction xs with
  | nil => exact absurd rfl h
  | cons a rest ih =>
    cases rest with
    | nil => simp [greatest]
    | cons b rest2 =>
      have h1 := ih (by simp)
      simp only [greatest]
      rcases max_choice a (greatest (b :: rest2)) with hm | hm
      · rw [hm]
        exact List.mem_cons_self _ _
      · rw [hm]
        exact List.mem_cons_of_mem _ h1

theorem foldl_max_greatest (xs : List Int) (m : Int) (h : xs ≠ []) :
    xs.foldl max m = max m (greatest xs) := by
  induction xs generalizing m with
  | nil => exact absurd rfl h
  | cons a rest ih =>
    cases rest with
    | nil => simp [greatest]
    | cons b rest2 =>
      have h1 := ih (max m a) (by simp)
      simp only [List.foldl_cons] at h1 ⊢
      rw [h1]
      simp only [greatest]
      exact max_assoc _ _ _

theorem foldl_max_zero (xs : List Int) : xs.foldl max 0 = greatestOrZero xs := by
  unfold greatestOrZero
  by_cases hne : xs = []
  · subst hne
    rfl
  · rw [foldl_max_greatest xs 0 hne]
    split
    · next hall =>
      have hneg : greatest xs < 0 := by
        have := List.all_eq_true.mp hall _ (greatest_mem xs hne)
        simpa using this
      omega
    · next hall =>
      have hex : ∃ x ∈ xs, 0 ≤ x := by
        by_contra hcon
        apply hall
        rw [List.all_eq_true]
        intro x hx
        simp only [decide_eq_true_eq]
        by_contra hx0
        exact hcon ⟨x, hx, by omega⟩
      obtain ⟨x, hx, hx0⟩ := hex
      have := le_greatest xs x hx
      omega

theorem greatestOrZero_of_nonneg (xs : List Int) (h : ∃ x ∈ xs, 0 ≤ x) :
    greatestOrZero xs = greatest xs := by
  unfold greatestOrZero
  split
  · next hall =>
    obtain ⟨x, hx, hx0⟩ := h
    have := List.all_eq_true.mp hall x hx
    simp only [decide_eq_true_eq] at this
    omega
  · rfl

/-- Closed form of `stats` on a served list that is not empty. -/
theorem stats_nonempty (served : List Customer) (hne : served ≠ []) :
    stats served =
      { statsReference served with
        maxDepth := greatestOrZero (served.map Customer.startingDepth) } := by
  have hlen : (served.length : Int) ≠ 0 := by
    have : served.length ≠ 0 := fun h => hne (List.length_eq_zero.mp h)
    exact_mod_cast this
  simp only [stats, statsReference, statsLoop_eq_foldl, fold_numServed, fold_totalTransTime,
    fold_totalTelWait, fold_totalCustWait, fold_maxDepth, fold_maxTransTime,
    fold_maxTelWait, fold_maxCustWait, foldl_max_zero, zero_add, cdiv, if_neg hlen]

/-- C11 (statistics pass): on a served list of `n ≥ 1` customers `stats` reports the
values of the reference definition `statsReference`: `numServed = n` (every customer
is counted once), every maximum the greatest value in the list or 0 when all are
negative, and every average the truncated quotient of the sum by `n`.  The maximum
queue depth is the greatest `startingDepth` whenever some `startingDepth` is not
negative, which holds for the served list of every reachable state. -/
theorem C11_stats_reference (served : List Customer) (hne : served ≠ []) :
    stats served =
      { statsReference served with
        maxDepth := greatestOrZero (served.map Customer.startingDepth) } ∧
    ((∃ c ∈ served, 0 ≤ c.startingDepth) → stats served = statsReference served) ∧
    (∀ ct s, Reachable ct s → s.served = served → stats served = statsReference served) := by
  have hlit : (∃ c ∈ served, 0 ≤ c.startingDepth) → stats served = statsReference served := by
    intro hex
    rw [stats_nonempty served hne, greatestOrZero_of_nonneg]
    · rfl
    · obtain ⟨c, hc, hc0⟩ := hex
      exact ⟨c.startingDepth, List.mem_map_of_mem _ hc, hc0⟩
  refine ⟨stats_nonempty served hne, hlit, ?_⟩
  intro ct s hr hs
  apply hlit
  obtain ⟨c, rest, hcons⟩ := List.exists_cons_of_ne_nil hne
  refine ⟨c, by rw [hcons]; exact List.mem_cons_self _ _, ?_⟩
  have := (depthInv_reachable ct s hr).2.2 c (by rw [hs, hcons]; exact List.mem_cons_self _ _)
  omega

/-- Witness for C11: the served list of `afterBusyDay` extended by a second customer,
with the values `stats` reports on it. -/
theorem C11_stats_reference_witness :
    stats [{ id := 1, startWaitTime := 60, endWaitTime := 90, tellWaitTime := 60,
             transTime := 30, depth := 1, startingDepth := 1 },
           { id := 2, startWaitTime := 150, endWaitTime := 285, tellWaitTime := 60,
             transTime := 135, depth := 2, startingDepth := 3 }]
      = { numServed := 2, maxDepth := 3, maxTransTime := 135, avgTransTime := some 82,
          maxTelWait := 60, avgTelWait := some 60, maxCustWait := 135,
          avgCustWait := some 82 } :=
  ((C11_stats_reference
    [{ id := 1, startWaitTime := 60, endWaitTime := 90, tellWaitTime := 60,
       transTime := 30, depth := 1, startingDepth := 1 },
     { id := 2, startWaitTime := 150, endWaitTime := 285, tellWaitTime := 60,
       transTime := 135, depth := 2, startingDepth := 3 }]
    (by decide)).2.1 ⟨_, List.mem_cons_self _ _, by decide⟩).trans (by decide)

/-- C12 (dequeue): on an empty queue `dequeue` and `getNextCust` return no customer
and leave the queue empty; on a non-empty queue they return the front customer and
leave the remaining customers in their order (`getNextCust` leaves the semaphore as
it is).  With the `next` pointers explicit: for a chain at addresses `as`, `dequeue`
returns the first address, the returned node's `next` is `NULL` afterwards, `*queue`
is the chain of the remaining addresses, no customer data changes, and the result
is the one of `dequeue` on the list that represents the chain. -/
theorem C12_dequeue (sem : Nat) (h : Heap) (p : Option Nat) (as : List Nat)
    (hc : Chain h p as) :
    (dequeue [] = (none, []) ∧
     getNextCust { q := [], semaphore := sem } = (none, { q := [], semaphore := sem })) ∧
    (∀ c rest, dequeue (c :: rest) = (some c, rest) ∧
      getNextCust { q := c :: rest, semaphore := sem }
        = (some c, { q := rest, semaphore := sem })) ∧
    (dequeuePtr h p).1 = as.head? ∧
    (∀ a, (dequeuePtr h p).1 = some a → ((dequeuePtr h p).2.2 a).next = none) ∧
    Chain (dequeuePtr h p).2.2 (dequeuePtr h p).2.1 as.tail ∧
    (∀ x, ((dequeuePtr h p).2.2 x).cust = (h x).cust) ∧
    dequeue (customersAt h as)
      = ((dequeuePtr h p).1.map (fun a => (h a).cust),
          customersAt (dequeuePtr h p).2.2 as.tail) := by
  refine ⟨⟨rfl, rfl⟩, fun c rest => ⟨rfl, rfl⟩, ?_⟩
  cases as with
  | nil =>
    simp only [Chain] at hc
    subst hc
    refine ⟨rfl, ?_, ?_, fun x => rfl, rfl⟩
    · intro a ha
      simp [dequeuePtr] at ha
    · simp [dequeuePtr, Chain]
  | cons a rest =>
    obtain ⟨hp, hrest⟩ := hc
    subst hp
    have hnot : a ∉ rest := chain_head_not_mem h a rest ⟨rfl, hrest⟩
    have hq1 : (dequeuePtr h (some a)).2.1 = (h a).next := by
      simp only [dequeuePtr]
      cases (h a).next <;> rfl
    have hother : ∀ x ∈ rest,
        (Function.update h a { h a with next := none }) x = h x := by
      intro x hx
      have hne : x ≠ a := fun e => hnot (e ▸ hx)
      simp [Function.update, hne]
    have hcust : ∀ x, ((Function.update h a { h a with next := none }) x).cust
        = (h x).cust := by
      intro x
      by_cases hx : x = a
      · subst hx
        simp [Function.update]
      · simp [Function.update, hx]
    refine ⟨rfl, ?_, ?_, hcust, ?_⟩
    · intro b hb
      simp only [dequeuePtr, Option.some.injEq] at hb
      subst hb
      simp [dequeuePtr, Function.update]
    · rw [hq1]
      exact chain_congr h _ _ rest (fun x hx => congrArg Node.next (hother x hx)) hrest
    · simp only [customersAt, List.map_cons, dequeue, List.tail_cons, dequeuePtr,
        Option.map_some']
      congr 1
      exact List.map_congr_left (fun x hx => (hcust x).symm)

/-- Witness for C12: the chain `10 -> 20 -> NULL` of `twoNodes`; `dequeue` returns
address 10 and leaves the chain `20 -> NULL`. -/
theorem C12_dequeue_witness :
    Chain twoNodes (some 10) [10, 20] ∧
    (dequeuePtr twoNodes (some 10)).1 = some 10 ∧
    ((dequeuePtr twoNodes (some 10)).2.2 10).next = none ∧
    Chain (dequeuePtr twoNodes (some 10)).2.2 (dequeuePtr twoNodes (some 10)).2.1 [20] :=
  ⟨⟨rfl, rfl, rfl⟩,
    (C12_dequeue 0 twoNodes (some 10) [10, 20] ⟨rfl, rfl, rfl⟩).2.2.1,
    (C12_dequeue 0 twoNodes (some 10) [10, 20] ⟨rfl, rfl, rfl⟩).2.2.2.1 10
      (C12_dequeue 0 twoNodes (some 10) [10, 20] ⟨rfl, rfl, rfl⟩).2.2.1,
    (C12_dequeue 0 twoNodes (some 10) [10, 20] ⟨rfl, rfl, rfl⟩).2.2.2.2.1⟩

/-- C13 (closing signal): one pass of the clock loop increments `secs` by exactly 1
and signals `bank.open` if and only if the incremented `secs` is greater than
`closingTime`; in the thread model, with `kill` unset the tick is taken, advances
the clock by 1 and releases a waiting `runBank` exactly in that case; and from
`secs = 0` with `closingTime = c`, after `c + 1` passes the clock is `c + 1`, the
passes `1..c` have not signalled and pass `c + 1` has. -/
theorem C13_closing_signal (ct secs : Int) (c : Nat) (s : Bank) (hk : s.kill = false) :
    ((bankClockIter ct secs).1 = secs + 1 ∧
     ((bankClockIter ct secs).2 = true ↔ secs + 1 > ct)) ∧
    (∃ s1, tick ct s = some s1 ∧ s1.secs = s.secs + 1 ∧
      (s.runBank = BankPc.waitOpen → (s1.runBank = BankPc.woken ↔ s.secs + 1 > ct))) ∧
    (bankClockLoop c (c + 1) 0).1 = (c : Int) + 1 ∧
    (bankClockLoop c (c + 1) 0).2 = List.replicate c false ++ [true] := by
  refine ⟨⟨rfl, by simp [bankClockIter]⟩, ?_, ?_, ?_⟩
  · refine ⟨_, by simp only [tick, hk]; rfl, rfl, ?_⟩
    intro hw
    simp only [hw, bankClockIter]
    by_cases hgt : s.secs + 1 > ct <;> simp [hgt]
  · rw [bankClockLoop_secs]
    push_cast
    ring
  · rw [bankClockLoop_append, bankClockLoop_quiet (c : Int) c 0 (by simp)]
    congr 1
    simp [bankClockLoop, bankClockIter]

/-- Witness for C13: the first tick of the day from `openBank`, and a bank that is
open for 2 simulated seconds: ticks 1 and 2 do not signal, tick 3 does. -/
theorem C13_closing_signal_witness :
    openBank.kill = false ∧
    (∃ s1, tick openTimeSecs openBank = some s1 ∧ s1.secs = openBank.secs + 1 ∧
      (openBank.runBank = BankPc.waitOpen →
        (s1.runBank = BankPc.woken ↔ openBank.secs + 1 > openTimeSecs))) ∧
    (bankClockLoop ((2 : Nat) : Int) (2 + 1) 0).2 = List.replicate 2 false ++ [true] :=
  ⟨rfl, (C13_closing_signal openTimeSecs 0 2 openBank rfl).2.1,
    (C13_closing_signal openTimeSecs 0 2 openBank rfl).2.2.2⟩

/-- C14 (frame of enqueue): `enqueue` of a customer on a queue yields the queue with
the customer appended, in which the node at position `i` (0-based) is the former
node with `depth` set to `i + 1` and every other field as it was, so the new
customer's `depth` is the new length.  When teller `i` appends its customer to the
served list (lines 165-168), every customer already served keeps its place and all
fields but `depth`, and the appended customer is the teller's customer with
`endWaitTime`, `transTime`, `tellWaitTime` and `depth` stored and its
`startingDepth` as it was. -/
theorem C14_enqueue_frame (q : List Customer) (c : Customer) (s : Bank) (i : Nat)
    (sw ew : Int) (cur : Customer) (w : Nat) (p : Bool)
    (hi : s.tellers[i]? = some (TellerPc.serving sw ew cur w 0 p)) :
    ((enqueue (some c) q).2.length = q.length + 1 ∧
     ∀ (j : Nat) (x : Customer), (q ++ [c])[j]? = some x →
       (enqueue (some c) q).2[j]? = some { x with depth := (j : Int) + 1 }) ∧
    ∃ s1, tellerFinish s i = some s1 ∧
      s1.served.length = s.served.length + 1 ∧
      (∀ (j : Nat) (x : Customer), s.served[j]? = some x →
        ∃ y : Customer, s1.served[j]? = some y ∧
          y = { x with depth := (j : Int) + 1 } ∧
          y.startingDepth = x.startingDepth ∧ y.startWaitTime = x.startWaitTime ∧
          y.endWaitTime = x.endWaitTime ∧ y.tellWaitTime = x.tellWaitTime ∧
          y.transTime = x.transTime ∧ y.id = x.id) ∧
      ∃ y : Customer, s1.served[s.served.length]? = some y ∧
        y = { cur with endWaitTime := s.secs, transTime := toInt32 w,
                       tellWaitTime := ew - sw,
                       depth := (s.served.length : Int) + 1 } ∧
        y.startingDepth = cur.startingDepth := by
  refine ⟨⟨?_, fun j x hx => enqueue_getElem c q j x hx⟩, ?_⟩
  · rw [enqueue_some]
    simp [traverse_length]
  · have hfin : tellerFinish s i = some
        { s with
          served := (enqueue (some { cur with endWaitTime := s.secs, transTime := toInt32 w,
                                              tellWaitTime := ew - sw }) s.served).2,
          tellers := s.tellers.set i TellerPc.top } := by
      simp only [tellerFinish, hi]
    refine ⟨_, hfin, ?_, ?_, ?_⟩
    · simp only []
      rw [enqueue_some]
      simp [traverse_length]
    · intro j x hx
      refine ⟨_, enqueue_getElem _ s.served j x ?_, rfl, rfl, rfl, rfl, rfl, rfl, rfl⟩
      rw [List.getElem?_append_left (List.getElem?_eq_some.mp hx).1]
      exact hx
    · refine ⟨_, enqueue_getElem
        { cur with endWaitTime := s.secs, transTime := toInt32 w, tellWaitTime := ew - sw }
        s.served s.served.length
        { cur with endWaitTime := s.secs, transTime := toInt32 w, tellWaitTime := ew - sw }
        ?_, rfl, rfl⟩
      simp

/-- Witness for C14: in `beforeFinish` teller 1 appends customer 2 behind customer 1. -/
theorem C14_enqueue_frame_witness :
    beforeFinish.tellers[1]? = some (TellerPc.serving 90 150
      { id := 2, startWaitTime := 150, endWaitTime := 150, tellWaitTime := 0,
        transTime := 0, depth := 1, startingDepth := 1 } 130 0 false) ∧
    ∃ s1, tellerFinish beforeFinish 1 = some s1 ∧
      s1.served.length = beforeFinish.served.length + 1 :=
  ⟨by decide,
    (C14_enqueue_frame [] freshCustomer beforeFinish 1 90 150
      { id := 2, startWaitTime := 150, endWaitTime := 150, tellWaitTime := 0,
        transTime := 0, depth := 1, startingDepth := 1 } 130 false
      (by decide)).2.imp (fun _ h => ⟨h.1, h.2.1⟩)⟩


end Project4
